import Mathlib

/-!
Verification development for the kobo-img-fs-updater reconciliation engine.

This file gives a shallow embedding, in Lean 4, of the reconciliation core of
the repository:

  * `findAttachment` (src/modules/utils.js) — the attachment matcher;
  * the action-map builder step `buildActionMap` (src/configs/globals.js);
  * the attachment state record (`.attachments_map/.../{field}.json`) and its
    validator `isValidAttachmentMap` (src/modules/utils.js);
  * the action executor step `updateImages` (src/configs/globals.js),
    modelled as a pure fold over (record, field) jobs acting on an explicit
    filesystem/state-store state;
  * the `ImageCleaner` orphan sweeper (src/modules/image-cleaner.js);
  * the `saveImage` download/retry loop (src/modules/kobo-imgs-fs.js).

Conventions used throughout the embedding:

  * JavaScript `undefined` is modelled with `Option` (`Option.none` =
    undefined / absent object property).
  * JavaScript truthiness on strings: a string is falsy exactly when it is
    empty, so `if (value)` is modelled as `v ≠ ""` on the payload of a
    `some`, and `confirm(x, 'exists')` on a string field is
    `x = some s ∧ s ≠ ""`.
  * Machine hashes (sjcl bit arrays) are `List Int`; file contents are
    `List Int` (byte lists); the external digest `computeContentHash` and the
    download transport are parameters of the executor configuration
    (they are external collaborators per §6 of the spec).
  * Fallible code (`throw` in JS, or a failing `check(...)` assertion)
    returns `Except String _`.
-/

namespace KoboImgFs

/-- Bytes of a file (the downloaded image data). -/
abbrev Content := List Int

/-- An sjcl sha256 digest: a JS array of numbers. -/
abbrev HashVal := List Int

/-- Decidable equality for `Except`, used to evaluate concrete scenarios. -/
instance {e a : Type _} [DecidableEq e] [DecidableEq a] : DecidableEq (Except e a) := fun x y =>
  match x, y with
  | .ok v, .ok w =>
    match decEq v w with
    | isTrue h => isTrue (by rw [h])
    | isFalse h => isFalse (fun hh => h (by injection hh))
  | .ok _, .error _ => isFalse (fun hh => Except.noConfusion hh)
  | .error _, .ok _ => isFalse (fun hh => Except.noConfusion hh)
  | .error v, .error w =>
    match decEq v w with
    | isTrue h => isTrue (by rw [h])
    | isFalse h => isFalse (fun hh => h (by injection hh))

/-!
## Attachment matcher (src/modules/utils.js, `findAttachment`)
-/

/-- A remote attachment descriptor, with the five fields read and checked by
`findAttachment` (src/modules/utils.js lines 96-104).  The source field
`instance` is called `instanceId` here because `instance` is a Lean keyword. -/
structure Attachment where
  mimetype : String
  download_url : String
  filename : String
  instanceId : Int
  id : Int
deriving DecidableEq, Repr

/-- Largest index `j ≤ i` at which `pat` occurs in `s`, scanning downward,
or `Option.none` when there is no occurrence at an index `≤ i`. -/
def lastOccAux (s pat : List Char) : Nat → Option Nat
  | 0 => if pat.isPrefixOf s then some 0 else Option.none
  | i + 1 =>
    if pat.isPrefixOf (s.drop (i + 1)) then some (i + 1)
    else lastOccAux s pat i

/-- JavaScript `s.lastIndexOf(pat)`: the greatest index at which `pat`
occurs in `s` (searching indices `0 .. s.length`), and `-1` when `pat` does
not occur in `s`. -/
def jsLastIndexOf (s pat : String) : Int :=
  match lastOccAux s.data pat.data s.data.length with
  | some i => (i : Int)
  | Option.none => -1

/-- The per-attachment filter of `findAttachment` (src/modules/utils.js lines
106-111): the mimetype must match `/^image/`, and `filename.lastIndexOf(name)`
must be `≠ -1` and equal to `filename.length - name.length`. -/
def imageQualifies (name : String) (a : Attachment) : Bool :=
  "image".data.isPrefixOf a.mimetype.data &&
  (jsLastIndexOf a.filename name != -1 &&
   jsLastIndexOf a.filename name == (a.filename.data.length : Int) - (name.data.length : Int))

/-- The scan loop of `findAttachment` (src/modules/utils.js lines 94-120).
`result` is the best candidate so far; a later qualifying attachment replaces
it only when its `id` is strictly greater.  The `check` assertions on each
attachment's string fields throw on empty strings (JS falsy). -/
def findAttachmentGo (name : String) : List Attachment → Option Attachment → Except String (Option Attachment)
  | [], result => .ok result
  | a :: rest, result =>
    if a.mimetype = "" || a.download_url = "" || a.filename = "" then
      .error "expected string in @arg"
    else if !(imageQualifies name a) then
      findAttachmentGo name rest result
    else
      match result with
      | Option.none => findAttachmentGo name rest (some a)
      | some r =>
        if a.id > r.id then findAttachmentGo name rest (some a)
        else findAttachmentGo name rest (some r)

/-- `findAttachment(name, attachments, id)` (src/modules/utils.js lines
84-123).  The `id` argument is only used for diagnostics in the source and
does not influence the result.  `check(name, 'mustExists', 'string')` throws
when `name` is empty (falsy), which also makes the subsequent
`if(!name) return null` unreachable. -/
def findAttachment (name : String) (attachments : List Attachment) (_id : Int) : Except String (Option Attachment) :=
  if name = "" then .error "expected string in @arg"
  else findAttachmentGo name attachments Option.none

/-!
## Action map builder (src/configs/globals.js, `buildActionMap`)
-/

/-- The three reconciliation actions. -/
inductive Act
  | keep
  | delete
  | none
deriving DecidableEq, Repr

/-- One action-map entry: the object stored at
`_map[imgField["$autoname"]]` (src/configs/globals.js line 704). -/
structure ActionEntry where
  value : Option String
  attachment : Option Attachment
  action : Act
  subm_mapped_key : Option String
  warning : Option String
deriving DecidableEq, Repr

/-- One submission, with the three members read by `buildActionMap`:
`_id` (here `subId`), `_attachments` and `@images_map`.  `@images_map` is a
JS object keyed by field autoname whose values are arrays of single-entry
objects; an object is modelled as an association list with unique keys. -/
structure Subm where
  subId : Int
  attachments : List Attachment
  imagesMap : List (String × List (List (String × String)))
deriving DecidableEq, Repr

/-- JS property access `subm["@images_map"][autoname]`: `Option.none` models
`undefined` (key absent). -/
def lookupImagesMap (m : List (String × List (List (String × String)))) (k : String) :
    Option (List (List (String × String))) :=
  match m.find? (fun p => p.1 = k) with
  | some p => some p.2
  | Option.none => Option.none

/-- The body of the inner field loop of `buildActionMap`
(src/configs/globals.js lines 601-705) for a single image field: extract the
`@images_map` entry for the field and classify the field into
keep/delete/none.  Thrown `check` failures and explicit `throw new Error`
abort the whole step (`Except.error`). -/
def buildFieldEntry (subm : Subm) (autoname : String) : Except String ActionEntry :=
  if autoname = "" then .error "expected string in @arg"
  else
    match lookupImagesMap subm.imagesMap autoname with
    | Option.none => .error "expected array in @arg"
    | some arr =>
      if arr.length > 1 then .error "expected one or zero entries in @@images_map element"
      else
        match arr with
        | [] =>
          -- no raw value: `value` stays undefined, `if (value)` is false → DELETE
          .ok { value := Option.none, attachment := Option.none, action := Act.delete,
                subm_mapped_key := Option.none, warning := Option.none }
        | obj :: _ =>
          match obj with
          | [(k, v)] =>
            if v = "" then
              -- the empty string is falsy in JS, so `if (value)` again takes
              -- the DELETE branch even though the raw value exists
              .ok { value := some v, attachment := Option.none, action := Act.delete,
                    subm_mapped_key := some k, warning := Option.none }
            else
              match findAttachment v subm.attachments subm.subId with
              | .error e => .error e
              | .ok Option.none =>
                .ok { value := some v, attachment := Option.none, action := Act.none,
                      subm_mapped_key := some k,
                      warning := some ("this field has an image name defined, but no attachment exist for it - record: "
                        ++ toString subm.subId ++ ", field: " ++ autoname ++ ", value: " ++ v) }
              | .ok (some a) =>
                .ok { value := some v, attachment := some a, action := Act.keep,
                      subm_mapped_key := some k, warning := Option.none }
          | _ => .error "expected only one entry in @@images_map element"

/-- Per-record action map: `_id` plus one `ActionEntry` per image field, in
field order (the JS object `_map` minus its `_id` key). -/
structure SubmMapRec where
  rid : Int
  entries : List (String × ActionEntry)
deriving DecidableEq, Repr

/-- Field loop of `buildActionMap` over one submission, accumulating entries
and warnings in order. -/
def buildSubmMapGo (subm : Subm) : List String → List (String × ActionEntry) → List String →
    Except String (List (String × ActionEntry) × List String)
  | [], es, ws => .ok (es, ws)
  | f :: rest, es, ws =>
    match buildFieldEntry subm f with
    | .error m => .error m
    | .ok e =>
      buildSubmMapGo subm rest (es ++ [(f, e)])
        (ws ++ (match e.warning with | some w => [w] | Option.none => []))

/-- Action map for one submission (one iteration of the submission loop of
`buildActionMap`, src/configs/globals.js lines 587-708), together with the
warnings it contributed. -/
def buildSubmMap (imgs : List String) (subm : Subm) : Except String (SubmMapRec × List String) :=
  match buildSubmMapGo subm imgs [] [] with
  | .error m => .error m
  | .ok (es, ws) => .ok ({ rid := subm.subId, entries := es }, ws)

/-- Submission loop of `buildActionMap` for one asset. -/
def buildAssetMapGo (imgs : List String) : List Subm → List SubmMapRec → List String →
    Except String (List SubmMapRec × List String)
  | [], ms, ws => .ok (ms, ws)
  | s :: rest, ms, ws =>
    match buildSubmMap imgs s with
    | .error m => .error m
    | .ok (r, w) => buildAssetMapGo imgs rest (ms ++ [r]) (ws ++ w)

/-- The action map of one asset (`map` plus the `warnings` list built by
`buildActionMap`, src/configs/globals.js lines 585-708), given the asset's
image fields (by autoname) and its submissions.  Any thrown error aborts the
whole build-action-map step. -/
def buildAssetMap (imgs : List String) (subs : List Subm) : Except String (List SubmMapRec × List String) :=
  buildAssetMapGo imgs subs [] []

/-!
## Attachment state records (src/modules/utils.js, `isValidAttachmentMap`)

A state record is the JSON object persisted at
`.attachments_map/{assetId}/{recordId}/{field}.json`.  JSON objects are open,
so every member the program ever reads is modelled as an `Option` field
(`Option.none` = member absent or not of the checked type).  The top-level
`hash` member is never written by this program and never checked by
`isValidAttachmentMap`, but it IS read by the delete branch of `updateImages`
(src/configs/globals.js line 1179), so it is part of the model.
-/

/-- The `imgInfo` sub-object of a state record. -/
structure StoredImgInfo where
  assetUid : Option String
  assetName : Option String
  recordId : Option Int
  name : Option String
  size : Option Int
  sizeMB : Option String
  type : Option String
  dimensions : Option String
  width : Option Int
  height : Option Int
  hash : Option HashVal
deriving DecidableEq, Repr

/-- A persisted attachment state record. -/
structure StoredMap where
  imageName : Option String
  originalName : Option String
  attachmentId : Option Int
  saveTimestamp : Option String
  imgInfo : Option StoredImgInfo
  hash : Option HashVal
deriving DecidableEq, Repr

/-- `confirm(x, 'exists') && isOfType(x, 'string')`: the member is present and
a non-empty (truthy) string. -/
def strExists (x : Option String) : Bool :=
  match x with
  | some s => !(s == "")
  | Option.none => false

/-- `isValidAttachmentMap` (src/modules/utils.js lines 831-853): structural
validation of a state record.  Numbers are checked with `confirm 'defined'`
(so `0` is fine); strings with `confirm 'exists'` (so `""` is invalid); the
nested hash must be an array (any array, arrays being always truthy). -/
def isValidAttachmentMap (m : StoredMap) : Bool :=
  strExists m.imageName &&
  strExists m.originalName &&
  m.attachmentId.isSome &&
  strExists m.saveTimestamp &&
  (match m.imgInfo with
   | Option.none => false
   | some ii =>
     strExists ii.assetUid && strExists ii.assetName && ii.recordId.isSome &&
     strExists ii.name && ii.size.isSome && strExists ii.sizeMB &&
     strExists ii.type && strExists ii.dimensions && ii.width.isSome &&
     ii.height.isSome && ii.hash.isSome)

/-!
## Action executor (src/configs/globals.js, `updateImages`)

`updateImages` is modelled per asset as a pure fold over (record, field) jobs
— the flattening of the per-submission loop (lines 874-1333) and the inner
per-field loop (lines 914-1327).  The state carries the asset's image
directory (`fs`), the `images_deleted` quarantine, the attachment state store,
the per-run duplicate-name guard lists and the per-run counters.  External
collaborators (the digest, the download transport, the canvas image metadata
and the wall clock) are fields of the configuration.
-/

/-- Terminal state of one (record, field) entry, mirroring the
`status`/`action_detail` members stored in `_result[e_key]`. -/
inductive Outcome
  | kept         -- keep: image up to date
  | downloaded   -- keep: image downloaded
  | removedFile  -- delete: image deleted (destructive policy)
  | movedFile    -- delete: image moved to the images_deleted dir
  | missingFile  -- delete: image does not exist (no-op success)
  | noStateInfo  -- delete: no valid attachment map; left for the cleaner
  | noneOp       -- none: no-op
  | err (msg : String)
deriving DecidableEq, Repr

/-- One unit of executor work: a record id, an image-field autoname, and the
action-map entry for that pair. -/
structure Job where
  rid : Int
  fieldKey : String
  entry : ActionEntry
deriving DecidableEq, Repr

/-- Executor configuration.  `hashFn` models the spec's external
`computeContentHash` (stable, deterministic digest); `fetch` models a full
`saveImage` download-and-write cycle (`Option.none` = the retry budget was
exhausted and `saveImage` threw); `fetchType` is the content type reported by
the transport; `imgW`/`imgH` model the canvas image metadata; `ts` models
`Utils.getCurrentTimestamp()`. -/
structure Cfg where
  deleteImages : Bool
  hashFn : Content → HashVal
  fetch : String → Option Content
  fetchType : String → Option String
  imgW : Content → Int
  imgH : Content → Int
  ts : String
  assetUid : String
  assetName : String

/-- Executor state for one asset run. -/
structure St where
  fs : String → Option Content
  quarantine : List (String × Content)
  store : Int × String → Option StoredMap
  keepNames : List String
  deleteNames : List String
  keepDup : List String
  delDup : List String
  downloads : Nat
  upToDate : Nat
  deletes : Nat
  nones : Nat
  errors : Nat
  warnings : Nat
  results : List (Int × String × Outcome)

/-- JS string coercion used by `emap["_id"] + '_' + e_value.value`:
`undefined` prints as "undefined". -/
def jsStr (x : Option String) : String :=
  match x with
  | some s => s
  | Option.none => "undefined"

/-- The computed target filename `img_new_name = _id + '_' + value`
(src/configs/globals.js line 1018). -/
def jsName (rid : Int) (v : Option String) : String :=
  toString rid ++ "_" ++ jsStr v

/-- JS `a ? a : b` on strings (`result.contentType ? result.contentType :
e_value["attachment"]["mimetype"]`, line 1125). -/
def jsOrStr (a b : Option String) : Option String :=
  match a with
  | some s => if s = "" then b else some s
  | Option.none => b

/-- Record a per-entry error: the catch blocks at lines 1153-1168 and
1292-1307 push the error and mark the entry `status: 'error'`. -/
def errResult (st : St) (j : Job) (msg : String) : St :=
  { st with errors := st.errors + 1,
            results := st.results ++ [(j.rid, j.fieldKey, Outcome.err msg)] }

/-- The freshness decision of the keep branch (src/configs/globals.js lines
1071-1077 together with the `e_has_attachment_map` computation at lines
939-952): the file must exist, a structurally valid state record must exist,
its `imageName` must equal the computed target name, its `attachmentId` must
equal the currently resolved attachment id, and the recomputed file hash must
equal `imgInfo.hash`.  `content` is the local file's bytes (`Option.none` =
file absent). -/
def imgIsUpToDate (hashFn : Content → HashVal) (content : Option Content)
    (stored : Option StoredMap) (imgNewName : String) (attId : Int) : Bool :=
  match content, stored with
  | some c, some m =>
    if !(isValidAttachmentMap m) then false
    else if !(m.imageName == some imgNewName) then false
    else if !(m.attachmentId == some attId) then false
    else
      match m.imgInfo with
      | some ii =>
        match ii.hash with
        | some h => hashFn c == h
        | Option.none => false
      | Option.none => false
  | _, _ => false

/-- The keep branch (src/configs/globals.js lines 957-1169), entered inside
the per-entry try/catch. -/
def execKeep (cfg : Cfg) (st : St) (j : Job) (stored : Option StoredMap) : St :=
  match j.entry.attachment with
  | Option.none =>
    -- reading `e_value.attachment.download_url` (line 1013) throws a
    -- TypeError on a null attachment, caught by the per-entry catch
    errResult st j "Cannot read properties of null"
  | some att =>
    let imgNewName := jsName j.rid j.entry.value
    if imgNewName ∈ st.keepNames then
      -- duplicated target name (lines 1024-1031): record and throw
      errResult { st with keepDup := st.keepDup ++ [imgNewName] } j
        ("in action 'keep': image name is duplicated: " ++ imgNewName)
    else
      let st := { st with keepNames := st.keepNames ++ [imgNewName] }
      let content := st.fs imgNewName
      if content.isSome ∧ imgIsUpToDate cfg.hashFn content stored imgNewName att.id then
        -- image up to date (lines 1082-1098)
        { st with upToDate := st.upToDate + 1,
                  results := st.results ++ [(j.rid, j.fieldKey, Outcome.kept)] }
      else
        -- download (lines 1099-1152)
        match cfg.fetch att.download_url with
        | Option.none =>
          -- saveImage exhausted its retry budget and threw; caught per entry
          errResult st j "saveImage fails after max retries"
        | some c =>
          let ii : StoredImgInfo :=
            { assetUid := some cfg.assetUid, assetName := some cfg.assetName,
              recordId := some j.rid, name := some imgNewName,
              size := some (c.length : Int),
              sizeMB := some (toString c.length ++ "MB"),
              type := jsOrStr (cfg.fetchType att.download_url) (some att.mimetype),
              dimensions := some ("width: " ++ toString (cfg.imgW c) ++ " pixels, height: "
                ++ toString (cfg.imgH c) ++ " pixels"),
              width := some (cfg.imgW c), height := some (cfg.imgH c),
              hash := some (cfg.hashFn c) }
          let m : StoredMap :=
            { imageName := some imgNewName, originalName := j.entry.value,
              attachmentId := some att.id, saveTimestamp := some cfg.ts,
              imgInfo := some ii, hash := Option.none }
          { st with
              fs := fun n => if n = imgNewName then some c else st.fs n,
              store := fun k => if k = (j.rid, j.fieldKey) then some m else st.store k,
              downloads := st.downloads + 1,
              results := st.results ++ [(j.rid, j.fieldKey, Outcome.downloaded)] }

/-- The delete branch (src/configs/globals.js lines 1174-1308), entered
inside the per-entry try/catch.  Note the bug site: `img_hash` is read from
the TOP-LEVEL `hash` member of the state record (line 1179), which
`isValidAttachmentMap` never checks and which the download path never writes
(the digest lives at `imgInfo.hash`). -/
def execDelete (cfg : Cfg) (st : St) (j : Job) (stored : Option StoredMap) (eHas : Bool) : St :=
  if eHas then
    match stored with
    | some m =>
      let imgName := jsStr m.imageName
      let imgHash := m.hash
      if imgName ∈ st.keepNames then
        errResult { st with delDup := st.delDup ++ [imgName] } j
          ("in action 'delete': image name is duplicated in to-keep list: " ++ imgName)
      else if imgName ∈ st.deleteNames then
        errResult { st with delDup := st.delDup ++ [imgName] } j
          ("in action 'delete': image name is duplicated in to-delete list: " ++ imgName)
      else
        let st := { st with deleteNames := st.deleteNames ++ [imgName] }
        match st.fs imgName with
        | some c =>
          match imgHash with
          | Option.none =>
            -- isValidFileHash(file, undefined): check(hash,'mustExists','array')
            -- throws before any comparison (src/modules/utils.js line 717)
            errResult st j "isValidFileHash operation failed: expected array in @arg"
          | some h =>
            if cfg.hashFn c ≠ h then
              errResult st j ("trying to remove an image with a different hash than the image that was stored originally : " ++ imgName)
            else if cfg.deleteImages then
              { st with fs := fun n => if n = imgName then Option.none else st.fs n,
                        deletes := st.deletes + 1,
                        results := st.results ++ [(j.rid, j.fieldKey, Outcome.removedFile)] }
            else
              { st with fs := fun n => if n = imgName then Option.none else st.fs n,
                        quarantine := st.quarantine ++ [(imgName, c)],
                        deletes := st.deletes + 1,
                        results := st.results ++ [(j.rid, j.fieldKey, Outcome.movedFile)] }
        | Option.none =>
          -- image does not exist: no-op success (lines 1263-1276)
          { st with nones := st.nones + 1,
                    results := st.results ++ [(j.rid, j.fieldKey, Outcome.missingFile)] }
    | Option.none =>
      -- unreachable: eHas implies a stored record is present
      { st with nones := st.nones + 1,
                results := st.results ++ [(j.rid, j.fieldKey, Outcome.noStateInfo)] }
  else
    -- no valid attachment map: left for the cleaner (lines 1278-1291)
    { st with nones := st.nones + 1,
              results := st.results ++ [(j.rid, j.fieldKey, Outcome.noStateInfo)] }

/-- The `e_has_attachment_map` test (src/configs/globals.js lines 939-952): a
stored record exists and passes structural validation. -/
def eHasOf (stored : Option StoredMap) : Bool :=
  match stored with
  | some m => isValidAttachmentMap m
  | Option.none => false

/-- State-record lookup and validation preceding the action dispatch
(src/configs/globals.js lines 939-952), then the dispatch itself. -/
def execEntryRun (cfg : Cfg) (st : St) (j : Job) : St :=
  let stored := st.store (j.rid, j.fieldKey)
  let eHas := match stored with
    | some m => isValidAttachmentMap m
    | Option.none => false
  -- a present-but-invalid record pushes a warning (lines 945-951); writing the
  -- bump as an addend keeps every other field definitionally unchanged
  let st1 := { st with warnings := st.warnings + (if stored.isSome ∧ eHas = false then 1 else 0) }
  match j.entry.action with
  | Act.keep => execKeep cfg st1 j stored
  | Act.delete => execDelete cfg st1 j stored eHas
  | Act.none =>
    -- none is always a no-op in the executor (lines 1313-1326)
    { st1 with nones := st1.nones + 1,
               results := st1.results ++ [(j.rid, j.fieldKey, Outcome.noneOp)] }

/-- One (record, field) entry of `updateImages`.  The `check` assertions at
lines 920-927 run OUTSIDE the per-entry try/catch, so an attachment present
with a falsy `download_url` aborts the whole step. -/
def execEntry (cfg : Cfg) (st : St) (j : Job) : Except String St :=
  match j.entry.attachment with
  | some a =>
    if a.download_url = "" then .error "expected string in @arg"
    else .ok (execEntryRun cfg st j)
  | Option.none => .ok (execEntryRun cfg st j)

/-- The executor loop over all (record, field) jobs of one asset. -/
def execJobs (cfg : Cfg) : St → List Job → Except String St
  | st, [] => .ok st
  | st, j :: rest =>
    match execEntry cfg st j with
    | .error e => .error e
    | .ok st' => execJobs cfg st' rest

/-- A fresh `updateImages` invocation over the surviving persistent state:
the duplicate-guard lists, counters and results are per-run locals of
`updateImages`, while the image directory, quarantine and state store live on
disk. -/
def initRun (st : St) : St :=
  { st with keepNames := [], deleteNames := [], keepDup := [], delDup := [],
            downloads := 0, upToDate := 0, deletes := 0, nones := 0,
            errors := 0, warnings := 0, results := [] }

/-- Flatten an asset's action map into the executor's job list, in
processing order. -/
def jobsOfMap (map : List SubmMapRec) : List Job :=
  map.flatMap (fun r => r.entries.map (fun p => { rid := r.rid, fieldKey := p.1, entry := p.2 }))

/-!
## Orphan sweeper (src/modules/image-cleaner.js, `ImageCleaner`)
-/

/-- `Utils.buildImageName` (src/modules/utils.js lines 744-750). -/
def buildImageName (pre name : String) : String :=
  pre ++ "_" ++ name

/-- The three name sets computed by the `map` setter. -/
structure CSets where
  keeps : List String
  deletes : List String
  nones : List String
deriving DecidableEq, Repr

/-- One entry of the `map` setter's inner loop (src/modules/image-cleaner.js
lines 234-256): only entries with a truthy `value` contribute a prefixed
name, pushed into the list matching their action. -/
def cleanerSetsEntry (rid : Int) (sets : CSets) (e : ActionEntry) : CSets :=
  match e.value with
  | some v =>
    if v = "" then sets
    else
      let n := buildImageName (toString rid) v
      { keeps := if e.action = Act.keep then sets.keeps ++ [n] else sets.keeps,
        deletes := if e.action = Act.delete then sets.deletes ++ [n] else sets.deletes,
        nones := if e.action = Act.none then sets.nones ++ [n] else sets.nones }
  | Option.none => sets

/-- The name sets (`#keeps`, `#deletes`, `#nones`) computed by the
`ImageCleaner.map` setter from an action map. -/
def cleanerSets (map : List SubmMapRec) : CSets :=
  map.foldl (fun sets r => r.entries.foldl (fun s p => cleanerSetsEntry r.rid s p.2) sets)
    { keeps := [], deletes := [], nones := [] }

/-- What the sweeper does to one directory entry. -/
inductive CleanKind
  | removedPermanently   -- Utils.deletePath
  | movedToCleaned       -- Utils.mvFile into the cleanedPath (quarantine)
deriving DecidableEq, Repr

/-- The per-file decision of `ImageCleaner.run` (src/modules/image-cleaner.js
lines 290-390): a file in neither the keep set nor the delete set is removed
(destructive toggle on) or moved (toggle off); otherwise, if it is in the
none set it is moved; otherwise it is left alone (`Option.none`). -/
def cleanFileAction (deleteImages : Bool) (sets : CSets) (file : String) : Option CleanKind :=
  if file ∉ sets.keeps ∧ file ∉ sets.deletes then
    if deleteImages then some CleanKind.removedPermanently
    else some CleanKind.movedToCleaned
  else if file ∈ sets.nones then some CleanKind.movedToCleaned
  else Option.none

/-- The sweeper's pass over the directory listing: the `#cleaned` operation
list, keeping only the files acted upon. -/
def cleanerRun (deleteImages : Bool) (sets : CSets) (files : List String) :
    List (String × CleanKind) :=
  files.filterMap (fun f => (cleanFileAction deleteImages sets f).map (fun k => (f, k)))

/-!
## Download retry loop (src/modules/kobo-imgs-fs.js, `saveImage`)
-/

/-- Result of one download-and-write attempt: `failed` models a thrown
`download()` / missing results / write error; `ok` carries the transport's
byte counts and content type.  A falsy (`0`, modelling also `undefined`)
content length throws, and a `bytesRead` different from `contentLength`
throws `'incomplete download'`; both are retried. -/
inductive AttemptRes
  | failed
  | ok (bytesRead contentLength : Int) (contentType : Option String)
deriving DecidableEq, Repr

/-- The value `saveImage` resolves with on success. -/
structure SaveResult where
  bytesRead : Int
  contentLength : Int
  contentType : Option String
deriving DecidableEq, Repr

/-- One iteration of the download & write cycle body (src/modules/
kobo-imgs-fs.js lines 120-172): `Option.none` means the iteration threw and
the catch incremented `retries`. -/
def attemptOutcome (r : AttemptRes) : Option SaveResult :=
  match r with
  | AttemptRes.failed => Option.none
  | AttemptRes.ok br cl ct =>
    if cl = 0 then Option.none
    else if br ≠ cl then Option.none
    else some { bytesRead := br, contentLength := cl, contentType := ct }

/-- The `while(!done && retries<=options.maxDownloadRetries && !result)` loop:
`r` is the current value of `retries` (starting at 1) and the fuel is the
number of remaining permitted attempts. -/
def saveTry (att : Nat → AttemptRes) : Nat → Nat → Option SaveResult
  | _, 0 => Option.none
  | r, f + 1 =>
    match attemptOutcome (att r) with
    | some res => some res
    | Option.none => saveTry att (r + 1) f

/-- `saveImage` (src/modules/kobo-imgs-fs.js lines 104-180), abstracted over
the per-attempt transport outcome `att`: attempts run at `retries = 1, ...,
maxDownloadRetries`; if none succeeds the function throws. -/
def saveImage (att : Nat → AttemptRes) (maxDownloadRetries : Nat) : Except String SaveResult :=
  match saveTry att 1 maxDownloadRetries with
  | some res => .ok res
  | Option.none => .error ("saveImage fails after " ++ toString maxDownloadRetries ++ " retries")

/-!
## Claim-side specification predicates
-/

/-- The correlation invariant exactly as the specification states it (§3
and §8.3): every generated entry falls in exactly one of the three cases
"value absent ⇒ delete", "value present and an attachment resolves ⇒ keep
with that attachment", "value present and no attachment resolves ⇒ none with
null attachment".  This is the SPEC's wording, to be compared with what
`buildFieldEntry` actually produces. -/
def c1Correlation (atts : List Attachment) (rid : Int) (e : ActionEntry) : Prop :=
  (e.value = Option.none ∧ e.action = Act.delete ∧ e.attachment = Option.none) ∨
  (∃ v a, e.value = some v ∧ findAttachment v atts rid = .ok (some a) ∧
    e.action = Act.keep ∧ e.attachment = some a) ∨
  (∃ v, e.value = some v ∧ (¬ ∃ a, findAttachment v atts rid = .ok (some a)) ∧
    e.action = Act.none ∧ e.attachment = Option.none)

/-- The freshness conditions exactly as the specification states them
(§4.3): the local file exists; a structurally valid state record exists; its
stored image name equals the record-id-prefixed expected filename; its stored
attachment id equals the currently resolved attachment id; and the recomputed
content hash of the local file equals the stored hash.  This is the SPEC's
wording, to be compared with the executor's decision. -/
def specFreshness (cfg : Cfg) (st : St) (j : Job) (a : Attachment) : Prop :=
  ∃ c, st.fs (jsName j.rid j.entry.value) = some c ∧
  ∃ m, st.store (j.rid, j.fieldKey) = some m ∧
    isValidAttachmentMap m = true ∧
    m.imageName = some (jsName j.rid j.entry.value) ∧
    m.attachmentId = some a.id ∧
    ∃ ii h, m.imgInfo = some ii ∧ ii.hash = some h ∧ cfg.hashFn c = h

/-!
## Infrastructure for the idempotence claim (§8.1)
-/

/-- The keep target filenames of a job list, in order. -/
def keepTargets (jobs : List Job) : List String :=
  (jobs.filter (fun j => j.entry.action = Act.keep)).map (fun j => jsName j.rid j.entry.value)

/-- The stored image name a delete job will operate on, when the initial
state store holds a structurally valid record for it. -/
def validDelName (store0 : Int × String → Option StoredMap) (j : Job) : Option String :=
  if j.entry.action = Act.delete then
    match store0 (j.rid, j.fieldKey) with
    | some m => if isValidAttachmentMap m then some (jsStr m.imageName) else Option.none
    | Option.none => Option.none
  else Option.none

/-- The stored image names of all delete jobs with a valid initial state
record, in order. -/
def delNames (store0 : Int × String → Option StoredMap) (jobs : List Job) : List String :=
  jobs.filterMap (validDelName store0)

/-- A keep job is "fresh" in a state: the state store holds a valid record
whose image name, attachment id and content hash agree with the job's target
name, its resolved attachment and the bytes on disk — exactly what makes the
next run classify it as up to date. -/
def Fresh (cfg : Cfg) (st : St) (j : Job) : Prop :=
  ∀ a, j.entry.attachment = some a →
    ∃ m c, st.store (j.rid, j.fieldKey) = some m ∧ isValidAttachmentMap m = true ∧
      m.imageName = some (jsName j.rid j.entry.value) ∧
      m.attachmentId = some a.id ∧
      st.fs (jsName j.rid j.entry.value) = some c ∧
      (∃ ii, m.imgInfo = some ii ∧ ii.hash = some (cfg.hashFn c))

/-- Well-formedness of one reconciliation run, as presumed by the
idempotence property: (record, field) keys are unique (submission ids are
unique, JS object keys are unique); keep target names are unique (no
duplicate-name collisions); stored delete names are unique and disjoint from
the keep targets (state records describe distinct files that no keep entry
owns); attachment URLs are non-empty; every keep entry carries a non-empty
value and a complete attachment whose download succeeds (the claim presumes
downloads succeed: "the state record written by the first run"); the clock
and asset identity render as non-empty strings; the run starts with empty
duplicate-guard lists. -/
def C7Hyps (cfg : Cfg) (st0 : St) (jobs : List Job) : Prop :=
  (jobs.map (fun j => (j.rid, j.fieldKey))).Nodup ∧
  (keepTargets jobs).Nodup ∧
  (delNames st0.store jobs).Nodup ∧
  (∀ j ∈ jobs, ∀ a, j.entry.attachment = some a → a.download_url ≠ "") ∧
  (∀ j ∈ jobs, j.entry.action = Act.keep →
    (∃ v, j.entry.value = some v ∧ v ≠ "") ∧
    (∃ a, j.entry.attachment = some a ∧ a.mimetype ≠ "" ∧
      ∃ c, cfg.fetch a.download_url = some c)) ∧
  (∀ n ∈ delNames st0.store jobs, n ∉ keepTargets jobs) ∧
  cfg.ts ≠ "" ∧ cfg.assetUid ≠ "" ∧ cfg.assetName ≠ "" ∧
  st0.keepNames = [] ∧ st0.deleteNames = []

/-- Invariant of the first run after processing the prefix `pre`, relating
the current state `st` to the initial state `st0`. -/
def Inv1 (cfg : Cfg) (st0 : St) (pre : List Job) (st : St) : Prop :=
  (∀ n, n ∉ keepTargets pre → n ∉ delNames st0.store pre → st.fs n = st0.fs n) ∧
  (∀ k, (∀ j ∈ pre, j.entry.action = Act.keep → (j.rid, j.fieldKey) ≠ k) →
    st.store k = st0.store k) ∧
  (∀ j ∈ pre, j.entry.action = Act.keep → Fresh cfg st j) ∧
  (∀ j ∈ pre, j.entry.action = Act.delete →
    ∀ m, st0.store (j.rid, j.fieldKey) = some m → isValidAttachmentMap m = true →
      (st0.fs (jsStr m.imageName) = Option.none → st.fs (jsStr m.imageName) = Option.none) ∧
      (∀ c, st0.fs (jsStr m.imageName) = some c →
        (m.hash = some (cfg.hashFn c) → st.fs (jsStr m.imageName) = Option.none) ∧
        (m.hash ≠ some (cfg.hashFn c) → st.fs (jsStr m.imageName) = some c))) ∧
  (∀ x, x ∈ st.keepNames ↔ x ∈ keepTargets pre) ∧
  (∀ x, x ∈ st.deleteNames ↔ x ∈ delNames st0.store pre)

/-- Invariant of the second run after processing the prefix `pre`: nothing on
disk changes, the guard lists evolve exactly as in the first run, nothing is
downloaded or deleted, and every processed keep entry resolved to
up-to-date. -/
def Inv2 (store0 : Int × String → Option StoredMap) (st1 : St) (pre : List Job) (st : St) : Prop :=
  (∀ n, st.fs n = st1.fs n) ∧
  (∀ k, st.store k = st1.store k) ∧
  (∀ x, x ∈ st.keepNames ↔ x ∈ keepTargets pre) ∧
  (∀ x, x ∈ st.deleteNames ↔ x ∈ delNames store0 pre) ∧
  st.downloads = 0 ∧ st.deletes = 0 ∧
  (∀ j ∈ pre, j.entry.action = Act.keep → (j.rid, j.fieldKey, Outcome.kept) ∈ st.results)

/-!
## Concrete fixtures for counterexamples, code-bug evaluations and witnesses
-/

/-- An image attachment used by several concrete scenarios. -/
def attFix : Attachment :=
  { mimetype := "image/jpeg", download_url := "u/a.jpg", filename := "dir/a.jpg",
    instanceId := 5, id := 3 }

/-- A second image attachment for the same base name, with a greater id. -/
def attFixB : Attachment :=
  { mimetype := "image/png", download_url := "u/b", filename := "x/a.jpg",
    instanceId := 5, id := 9 }

/-- A submission whose image field is present with an EMPTY string value. -/
def submEmptyVal : Subm :=
  { subId := 5, attachments := [attFix], imagesMap := [("photo", [[("photo", "")]])] }

/-- A submission whose image field maps to TWO raw entries (ambiguous
binding). -/
def submAmbiguous : Subm :=
  { subId := 5, attachments := [], imagesMap := [("photo", [[("a", "x.jpg")], [("b", "y.jpg")]])] }

/-- A well-formed submission: one matched field and one absent field. -/
def submOk : Subm :=
  { subId := 1721, attachments := [attFix],
    imagesMap := [("photoA", [[("g/photoA", "a.jpg")]]), ("photoB", [])] }

/-- A fully valid `imgInfo` whose content hash is `[5]`. -/
def iiFix : StoredImgInfo :=
  { assetUid := some "u", assetName := some "n", recordId := some 7,
    name := some "7_a.jpg", size := some 1, sizeMB := some "0MB", type := some "image/jpeg",
    dimensions := some "d", width := some 1, height := some 1, hash := some [5] }

/-- A structurally valid state record for `7_a.jpg` as this program itself
writes them: the digest lives at `imgInfo.hash` and there is NO top-level
`hash` member. -/
def smapFix : StoredMap :=
  { imageName := some "7_a.jpg", originalName := some "a.jpg",
    attachmentId := some 2, saveTimestamp := some "t", imgInfo := some iiFix,
    hash := Option.none }

/-- Executor configuration for the concrete scenarios: the digest of every
content is `[5]`, downloads succeed with content `[7]`, destructive policy
on. -/
def cfgFix : Cfg :=
  { deleteImages := true, hashFn := fun _ => [5], fetch := fun _ => some [7],
    fetchType := fun _ => Option.none, imgW := fun _ => 1, imgH := fun _ => 1, ts := "t",
    assetUid := "u", assetName := "n" }

/-- Initial executor state for the concrete scenarios: the directory holds
`7_a.jpg` (bytes `[9]`, digest `[5]` under `cfgFix`), and the store holds
`smapFix` for record 7, field `f`. -/
def stFix : St :=
  { fs := fun n => if n = "7_a.jpg" then some [9] else Option.none,
    quarantine := [], store := fun k => if k = (7, "f") then some smapFix else Option.none,
    keepNames := [], deleteNames := [], keepDup := [], delDup := [],
    downloads := 0, upToDate := 0, deletes := 0, nones := 0, errors := 0, warnings := 0,
    results := [] }

/-- A delete job for record 7, field `f` (entry exactly as the builder
produces delete entries: no value, no attachment). -/
def jobDelFix : Job :=
  { rid := 7, fieldKey := "f",
    entry := { value := Option.none, attachment := Option.none, action := Act.delete,
               subm_mapped_key := Option.none, warning := Option.none } }

/-- A keep job for record 7, field `g`, targeting `7_b.jpg`. -/
def jobKeepFix : Job :=
  { rid := 7, fieldKey := "g",
    entry := { value := some "b.jpg", attachment := some attFix, action := Act.keep,
               subm_mapped_key := some "g", warning := Option.none } }

/-- An action map holding a single `none` entry for record 5, value
`a.jpg` (so the cleaner's none set contains `5_a.jpg`). -/
def mapNoneFix : List SubmMapRec :=
  [{ rid := 5,
     entries := [("f", { value := some "a.jpg", attachment := Option.none, action := Act.none,
                         subm_mapped_key := some "f", warning := some "w" })] }]

/-- The keep entry the builder produces for field `photoA` of `submOk`. -/
def entryKeepOk : ActionEntry :=
  { value := some "a.jpg", attachment := some attFix, action := Act.keep,
    subm_mapped_key := some "g/photoA", warning := Option.none }

/-- The delete entry the builder produces for field `photoB` of `submOk`. -/
def entryDelOk : ActionEntry :=
  { value := Option.none, attachment := Option.none, action := Act.delete,
    subm_mapped_key := Option.none, warning := Option.none }

/-- The per-record action map the builder produces for `submOk`. -/
def recOk : SubmMapRec :=
  { rid := 1721, entries := [("photoA", entryKeepOk), ("photoB", entryDelOk)] }

/-- The delete entry (with a defined empty-string value) the builder
produces for `submEmptyVal`. -/
def entryEmptyVal : ActionEntry :=
  { value := some "", attachment := Option.none, action := Act.delete,
    subm_mapped_key := some "photo", warning := Option.none }

/-- The per-record action map the builder produces for `submEmptyVal`. -/
def recEmptyVal : SubmMapRec :=
  { rid := 5, entries := [("photo", entryEmptyVal)] }

end KoboImgFs

/-!
# Theorems
-/

namespace KoboImgFs

/-!
## C4 — orphan sweeper none-set handling (code bug)

The spec (§4.5) and the cleaner's own comment ("Any entry in #nones will be
moved to #cleanedPath", src/modules/image-cleaner.js line 288) say a file in
the none set is always quarantined, never permanently deleted.  But the `run`
loop only reaches the none-set move in the `else` branch, i.e. when the file
IS in the keep or delete set; a none-set file outside those sets falls into
the first branch and is permanently removed when the destructive toggle is
on.
-/

/-- C4: with `deleteImages = true`, the file `5_a.jpg`, which is exactly the
none set of the builder-shaped map `mapNoneFix` (and in neither the keep set
nor the delete set), is permanently removed by the sweeper instead of being
quarantined; with the toggle off it is moved. -/
theorem c4_none_set_swept_destructively :
    cleanerSets mapNoneFix = { keeps := [], deletes := [], nones := ["5_a.jpg"] } ∧
    cleanerRun true (cleanerSets mapNoneFix) ["5_a.jpg"] =
      [("5_a.jpg", CleanKind.removedPermanently)] ∧
    cleanerRun false (cleanerSets mapNoneFix) ["5_a.jpg"] =
      [("5_a.jpg", CleanKind.movedToCleaned)] := by
  refine ⟨?_, ?_, ?_⟩ <;> decide

/-!
## C3 — delete guard (code bug)

The delete branch reads the hash to verify from the TOP-LEVEL `hash` member
of the state record (src/configs/globals.js line 1179,
`current_attachment_map_o.hash`), but the program stores the digest at
`imgInfo.hash` and never writes a top-level `hash`.  So for every state
record this program writes, `isValidFileHash(file, undefined)` throws
(`check(hash, 'mustExists', 'array')`), the entry ends in a per-entry error,
and an existing file is never removed nor quarantined — even when the
recomputed hash matches the stored `imgInfo.hash` exactly, where the spec
says the file must be removed (destructive policy) or moved.
-/

/-- C3: on a delete action with a structurally valid state record whose
`imgInfo.hash` equals the recomputed hash of the existing local file, the
executor produces a per-entry error (the `isValidFileHash` argument check
throws on the absent top-level `hash`) and the file survives, with zero
deletes counted — the code never reaches the removal branch. -/
theorem c3_delete_guard_hash_bug :
    ∃ st', execEntry cfgFix stFix jobDelFix = .ok st' ∧
      stFix.fs "7_a.jpg" = some [9] ∧
      isValidAttachmentMap smapFix = true ∧
      (∃ ii, smapFix.imgInfo = some ii ∧ ii.hash = some (cfgFix.hashFn [9])) ∧
      smapFix.hash = Option.none ∧
      st'.results = [(7, "f", Outcome.err "isValidFileHash operation failed: expected array in @arg")] ∧
      st'.deletes = 0 ∧ st'.errors = 1 ∧ st'.fs "7_a.jpg" = some [9] := by
  refine ⟨execEntryRun cfgFix stFix jobDelFix, rfl, by decide, by decide,
    ⟨iiFix, rfl, by decide⟩, rfl, ?_, ?_, ?_, ?_⟩ <;> decide

/-!
## C8 — saveImage retry budget and per-entry failure
-/

/-- If every attempt from `r` through `r + f - 1` fails, the retry loop ends
with no result. -/
theorem saveTry_none_of_fail (att : Nat → AttemptRes) :
    ∀ (f r : Nat), (∀ k, r ≤ k → k < r + f → attemptOutcome (att k) = Option.none) →
      saveTry att r f = Option.none := by
  intro f
  induction f with
  | zero => intro r _; rfl
  | succ f ih =>
    intro r h
    have h0 : attemptOutcome (att r) = Option.none := h r le_rfl (by omega)
    simp only [saveTry, h0]
    exact ih (r + 1) (fun k hk1 hk2 => h k (by omega) (by omega))

/-- If attempt `k` (within the window) is the first success, the retry loop
returns its result. -/
theorem saveTry_first_success (att : Nat → AttemptRes) :
    ∀ (f r k : Nat) (res : SaveResult), r ≤ k → k < r + f →
      attemptOutcome (att k) = some res →
      (∀ i, r ≤ i → i < k → attemptOutcome (att i) = Option.none) →
      saveTry att r f = some res := by
  intro f
  induction f with
  | zero => intro r k res h1 h2 _ _; exact absurd h2 (by omega)
  | succ f ih =>
    intro r k res h1 h2 hk hprev
    by_cases hr : r = k
    · subst hr
      simp only [saveTry, hk]
    · have h0 : attemptOutcome (att r) = Option.none := hprev r le_rfl (by omega)
      simp only [saveTry, h0]
      exact ih (r + 1) k res (by omega) (by omega) hk (fun i hi1 hi2 => hprev i (by omega) hi2)

/-- C8: (1) when every attempt `1 .. maxDownloadRetries` fails (including a
`bytesRead ≠ contentLength` attempt), `saveImage` throws after exhausting the
budget; (2) a `bytesRead`/`contentLength` mismatch is retried like any other
failure; (3) a first success within the budget resolves `saveImage` with that
attempt's result; (4) in the executor, a keep entry whose download throws is
caught per entry: the entry is recorded with status error and the saveImage
message, the error counter is incremented, nothing is downloaded, and the run
continues with the next entry. -/
theorem c8_download_retry_budget (att : Nat → AttemptRes) (maxR : Nat)
    (cfg : Cfg) (st : St) (j : Job) (a : Attachment) (rest : List Job) :
    ((∀ r, 1 ≤ r → r ≤ maxR → attemptOutcome (att r) = Option.none) →
      saveImage att maxR = .error ("saveImage fails after " ++ toString maxR ++ " retries")) ∧
    (∀ r f br cl ct, att r = AttemptRes.ok br cl ct → br ≠ cl →
      saveTry att r (f + 1) = saveTry att (r + 1) f) ∧
    (∀ k res, 1 ≤ k → k ≤ maxR → attemptOutcome (att k) = some res →
      (∀ i, 1 ≤ i → i < k → attemptOutcome (att i) = Option.none) →
      saveImage att maxR = .ok res) ∧
    (j.entry.action = Act.keep → j.entry.attachment = some a → a.download_url ≠ "" →
      cfg.fetch a.download_url = Option.none →
      jsName j.rid j.entry.value ∉ st.keepNames →
      imgIsUpToDate cfg.hashFn (st.fs (jsName j.rid j.entry.value))
        (st.store (j.rid, j.fieldKey)) (jsName j.rid j.entry.value) a.id = false →
      ∃ st', execEntry cfg st j = .ok st' ∧
        st'.errors = st.errors + 1 ∧
        st'.results = st.results ++ [(j.rid, j.fieldKey, Outcome.err "saveImage fails after max retries")] ∧
        st'.downloads = st.downloads ∧
        execJobs cfg st (j :: rest) = execJobs cfg st' rest) := by
  refine ⟨?_, ?_, ?_, ?_⟩
  · intro h
    have : saveTry att 1 maxR = Option.none :=
      saveTry_none_of_fail att maxR 1 (fun k hk1 hk2 => h k hk1 (by omega))
    simp [saveImage, this]
  · intro r f br cl ct hatt hne
    have h0 : attemptOutcome (att r) = Option.none := by
      simp [attemptOutcome, hatt, hne]
    simp only [saveTry, h0]
  · intro k res hk1 hk2 hk hprev
    have : saveTry att 1 maxR = some res :=
      saveTry_first_success att maxR 1 k res hk1 (by omega) hk hprev
    simp [saveImage, this]
  · intro hact hatt hurl hfetch hdup hstale
    refine ⟨execEntryRun cfg st j, ?_, ?_, ?_, ?_, ?_⟩
    · simp [execEntry, hatt, hurl]
    · simp [execEntryRun, hact, execKeep, hatt, hdup, hstale, hfetch, errResult]
    · simp [execEntryRun, hact, execKeep, hatt, hdup, hstale, hfetch, errResult]
    · simp [execEntryRun, hact, execKeep, hatt, hdup, hstale, hfetch, errResult]
    · have : execEntry cfg st j = .ok (execEntryRun cfg st j) := by
        simp [execEntry, hatt, hurl]
      simp [execJobs, this]

/-- C8 witness: attempt 2 of 3 succeeds after attempt 1 fails; a run of
attempts with `bytesRead = 4 ≠ 5 = contentLength` exhausts a budget of 2 and
throws; a keep entry whose download throws is caught per entry on the
concrete state. -/
theorem c8_witness :
    saveImage (fun r => if r = 2 then AttemptRes.ok 5 5 Option.none else AttemptRes.failed) 3 =
      .ok { bytesRead := 5, contentLength := 5, contentType := Option.none } ∧
    saveImage (fun _ => AttemptRes.ok 4 5 Option.none) 2 =
      .error ("saveImage fails after " ++ toString 2 ++ " retries") ∧
    ∃ st', execEntry { cfgFix with fetch := fun _ => Option.none } stFix jobKeepFix = .ok st' ∧
      st'.errors = stFix.errors + 1 ∧
      st'.results = stFix.results ++ [(7, "g", Outcome.err "saveImage fails after max retries")] ∧
      st'.downloads = stFix.downloads := by
  refine ⟨?_, ?_, ?_⟩
  · exact (c8_download_retry_budget
      (fun r => if r = 2 then AttemptRes.ok 5 5 Option.none else AttemptRes.failed) 3
      cfgFix stFix jobKeepFix attFix []).2.2.1 2
      { bytesRead := 5, contentLength := 5, contentType := Option.none }
      (by decide) (by decide) (by decide)
      (fun i h1 h2 => by
        have hi : i = 1 := by omega
        subst hi; decide)
  · exact (c8_download_retry_budget (fun _ => AttemptRes.ok 4 5 Option.none) 2
      cfgFix stFix jobKeepFix attFix []).1 (fun r _ _ => by decide)
  · obtain ⟨st', h1, h2, h3, h4, _⟩ := (c8_download_retry_budget (fun _ => AttemptRes.failed) 1
      { cfgFix with fetch := fun _ => Option.none } stFix jobKeepFix attFix []).2.2.2
      (by decide) (by decide) (by decide) rfl (by decide) (by decide)
    exact ⟨st', h1, h2, h3, h4⟩

/-!
## C9 — ambiguous field binding aborts the step
-/

/-- A field whose `@images_map` array holds more than one element makes
`buildFieldEntry` throw. -/
theorem buildFieldEntry_error_of_ambiguous (subm : Subm) (f : String)
    (arr : List (List (String × String)))
    (hl : lookupImagesMap subm.imagesMap f = some arr) (hlen : 1 < arr.length) :
    ∃ m, buildFieldEntry subm f = .error m := by
  by_cases hf : f = ""
  · exact ⟨"expected string in @arg", by simp [buildFieldEntry, hf]⟩
  · exact ⟨"expected one or zero entries in @@images_map element",
      by simp [buildFieldEntry, hf, hl, hlen]⟩

/-- A throwing field aborts the whole per-submission field loop. -/
theorem buildSubmMapGo_error_of_mem (subm : Subm) (f : String)
    (herr : ∃ m, buildFieldEntry subm f = .error m) :
    ∀ (fs : List String) (es : List (String × ActionEntry)) (ws : List String), f ∈ fs →
      ∃ m', buildSubmMapGo subm fs es ws = .error m' := by
  intro fs
  induction fs with
  | nil => intro es ws h; exact absurd h (List.not_mem_nil f)
  | cons g rest ih =>
    intro es ws h
    rcases List.mem_cons.mp h with hfg | hmem
    · subst hfg
      obtain ⟨m, hm⟩ := herr
      exact ⟨m, by simp [buildSubmMapGo, hm]⟩
    · cases hg : buildFieldEntry subm g with
      | error m => exact ⟨m, by simp [buildSubmMapGo, hg]⟩
      | ok e =>
        obtain ⟨m', hm'⟩ := ih (es ++ [(g, e)])
          (ws ++ (match e.warning with | some w => [w] | Option.none => [])) hmem
        exact ⟨m', by simp [buildSubmMapGo, hg, hm']⟩

/-- A throwing submission aborts the whole submission loop. -/
theorem buildAssetMapGo_error_of_mem (imgs : List String) (s : Subm)
    (herr : ∃ m, buildSubmMap imgs s = .error m) :
    ∀ (subs : List Subm) (ms : List SubmMapRec) (ws : List String), s ∈ subs →
      ∃ m', buildAssetMapGo imgs subs ms ws = .error m' := by
  intro subs
  induction subs with
  | nil => intro ms ws h; exact absurd h (List.not_mem_nil s)
  | cons t rest ih =>
    intro ms ws h
    rcases List.mem_cons.mp h with hst | hmem
    · subst hst
      obtain ⟨m, hm⟩ := herr
      exact ⟨m, by simp [buildAssetMapGo, hm]⟩
    · cases ht : buildSubmMap imgs t with
      | error m => exact ⟨m, by simp [buildAssetMapGo, ht]⟩
      | ok r =>
        obtain ⟨m', hm'⟩ := ih (ms ++ [r.1]) (ws ++ r.2) hmem
        exact ⟨m', by simp [buildAssetMapGo, ht, hm']⟩

/-- C9: if, for some image field of some submission, the submission's raw
field map yields more than one `@images_map` entry for that field's autoname,
the whole build-action-map step throws (no action map is produced). -/
theorem c9_ambiguous_binding_aborts (imgs : List String) (subs : List Subm)
    (s : Subm) (f : String) (arr : List (List (String × String)))
    (hs : s ∈ subs) (hf : f ∈ imgs)
    (hl : lookupImagesMap s.imagesMap f = some arr) (hlen : 1 < arr.length) :
    ∃ msg, buildAssetMap imgs subs = .error msg := by
  have h1 := buildFieldEntry_error_of_ambiguous s f arr hl hlen
  have h2 : ∃ m, buildSubmMap imgs s = .error m := by
    obtain ⟨m', hm'⟩ := buildSubmMapGo_error_of_mem s f h1 imgs [] [] hf
    exact ⟨m', by simp [buildSubmMap, hm']⟩
  exact buildAssetMapGo_error_of_mem imgs s h2 subs [] [] hs

/-- C9 witness: the ambiguous submission `submAmbiguous` (two raw entries for
field `photo`) aborts the step. -/
theorem c9_witness : ∃ msg, buildAssetMap ["photo"] [submAmbiguous] = .error msg :=
  c9_ambiguous_binding_aborts ["photo"] [submAmbiguous] submAmbiguous "photo"
    [[("a", "x.jpg")], [("b", "y.jpg")]]
    (by decide) (by decide) (by decide) (by decide)

/-!
## Builder analysis: what each generated entry looks like
-/

/-- The warnings list only grows along the field loop. -/
theorem buildSubmMapGo_ws_prefix (subm : Subm) :
    ∀ (fs : List String) (es : List (String × ActionEntry)) (ws es' ws'),
      buildSubmMapGo subm fs es ws = .ok (es', ws') → ∃ t, ws' = ws ++ t := by
  intro fs
  induction fs with
  | nil =>
    intro es ws es' ws' h
    simp only [buildSubmMapGo, Except.ok.injEq, Prod.mk.injEq] at h
    exact ⟨[], by simp [h.2]⟩
  | cons f rest ih =>
    intro es ws es' ws' h
    cases hg : buildFieldEntry subm f with
    | error m => simp [buildSubmMapGo, hg] at h
    | ok e =>
      simp only [buildSubmMapGo, hg] at h
      obtain ⟨t, ht⟩ := ih _ _ _ _ h
      exact ⟨(match e.warning with | some w => [w] | Option.none => []) ++ t, by
        simp [ht]⟩

/-- Every entry produced by the field loop comes from `buildFieldEntry` on
its own field, and its warning (if any) is in the final warnings list. -/
theorem buildSubmMapGo_mem (subm : Subm) :
    ∀ (fs : List String) (es : List (String × ActionEntry)) (ws es' ws'),
      buildSubmMapGo subm fs es ws = .ok (es', ws') →
      ∀ p ∈ es', p ∈ es ∨ (p.1 ∈ fs ∧ buildFieldEntry subm p.1 = .ok p.2 ∧
        ∀ w, p.2.warning = some w → w ∈ ws') := by
  intro fs
  induction fs with
  | nil =>
    intro es ws es' ws' h p hp
    simp only [buildSubmMapGo, Except.ok.injEq, Prod.mk.injEq] at h
    exact Or.inl (h.1 ▸ hp)
  | cons f rest ih =>
    intro es ws es' ws' h p hp
    cases hg : buildFieldEntry subm f with
    | error m => simp [buildSubmMapGo, hg] at h
    | ok e =>
      simp only [buildSubmMapGo, hg] at h
      rcases ih _ _ _ _ h p hp with hin | ⟨h1, h2, h3⟩
      · rcases List.mem_append.mp hin with hes | hfe
        · exact Or.inl hes
        · have hpe : p = (f, e) := by simpa using hfe
          subst hpe
          refine Or.inr ⟨List.mem_cons_self f rest, hg, ?_⟩
          intro w hw
          obtain ⟨t, ht⟩ := buildSubmMapGo_ws_prefix subm rest _ _ _ _ h
          rw [ht, hw]
          simp
      · exact Or.inr ⟨List.mem_cons_of_mem f h1, h2, h3⟩

/-- Every entry of a per-submission action map comes from `buildFieldEntry`
on its own field, with warnings collected. -/
theorem buildSubmMap_mem (subm : Subm) (imgs : List String) (rec : SubmMapRec) (ws : List String)
    (h : buildSubmMap imgs subm = .ok (rec, ws)) :
    rec.rid = subm.subId ∧
    ∀ p ∈ rec.entries, p.1 ∈ imgs ∧ buildFieldEntry subm p.1 = .ok p.2 ∧
      ∀ w, p.2.warning = some w → w ∈ ws := by
  unfold buildSubmMap at h
  cases hg : buildSubmMapGo subm imgs [] [] with
  | error m => rw [hg] at h; exact absurd h (by simp)
  | ok r =>
    obtain ⟨es', ws'⟩ := r
    rw [hg] at h
    simp only [Except.ok.injEq, Prod.mk.injEq] at h
    obtain ⟨hrec, hws⟩ := h
    subst hws
    subst hrec
    refine ⟨rfl, ?_⟩
    intro p hp
    rcases buildSubmMapGo_mem subm imgs [] [] es' ws' hg p hp with hin | ⟨hm1, hm2, hm3⟩
    · exact absurd hin (List.not_mem_nil p)
    · exact ⟨hm1, hm2, hm3⟩

/-- Case analysis of one generated entry: the delete branch fires exactly on
a falsy raw value (absent or empty), and a truthy value yields keep or none
according to the matcher, with the warning text referencing the record id,
field name and value. -/
theorem buildFieldEntry_cases (subm : Subm) (f : String) (e : ActionEntry)
    (h : buildFieldEntry subm f = .ok e) :
    ((e.value = Option.none ∨ e.value = some "") →
      e.action = Act.delete ∧ e.attachment = Option.none) ∧
    (e.action = Act.delete → (e.value = Option.none ∨ e.value = some "")) ∧
    (∀ v, e.value = some v → v ≠ "" →
      (∀ a, findAttachment v subm.attachments subm.subId = .ok (some a) →
        e.action = Act.keep ∧ e.attachment = some a) ∧
      (findAttachment v subm.attachments subm.subId = .ok Option.none →
        e.action = Act.none ∧ e.attachment = Option.none ∧
        e.warning = some ("this field has an image name defined, but no attachment exist for it - record: "
          ++ toString subm.subId ++ ", field: " ++ f ++ ", value: " ++ v))) := by
  by_cases hf : f = ""
  · simp [buildFieldEntry, hf] at h
  · cases hl : lookupImagesMap subm.imagesMap f with
    | none => simp [buildFieldEntry, hf, hl] at h
    | some arr =>
      cases arr with
      | nil =>
        simp only [buildFieldEntry, if_neg hf, hl, List.length_nil, gt_iff_lt,
          Nat.not_lt_zero, if_false, Except.ok.injEq] at h
        subst h
        refine ⟨fun _ => ⟨rfl, rfl⟩, fun _ => Or.inl rfl, ?_⟩
        intro v hv
        exact absurd hv (by simp)
      | cons obj tail =>
        cases tail with
        | cons o2 t2 => simp [buildFieldEntry, hf, hl] at h
        | nil =>
          have hlen : ¬ ([obj] : List (List (String × String))).length > 1 := by simp
          cases obj with
          | nil => simp [buildFieldEntry, hf, hl] at h
          | cons kv rest =>
            cases rest with
            | cons kv2 rest2 => simp [buildFieldEntry, hf, hl] at h
            | nil =>
              obtain ⟨k, v0⟩ := kv
              by_cases hv0 : v0 = ""
              · simp only [buildFieldEntry, if_neg hf, hl] at h
                rw [if_neg hlen, if_pos hv0] at h
                simp only [Except.ok.injEq] at h
                subst h
                refine ⟨fun _ => ⟨rfl, rfl⟩, fun _ => Or.inr (by rw [hv0]), ?_⟩
                intro v hv hne
                have hvv : v = v0 := by
                  simpa using hv.symm
                exact absurd (hvv ▸ hv0) hne
              · cases hfa : findAttachment v0 subm.attachments subm.subId with
                | error m =>
                  simp only [buildFieldEntry, if_neg hf, hl] at h
                  rw [if_neg hlen, if_neg hv0, hfa] at h
                  exact absurd h (by simp)
                | ok r =>
                  cases r with
                  | none =>
                    simp only [buildFieldEntry, if_neg hf, hl] at h
                    rw [if_neg hlen, if_neg hv0, hfa] at h
                    simp only [Except.ok.injEq] at h
                    subst h
                    refine ⟨?_, by intro hd; exact absurd hd (by simp), ?_⟩
                    · intro hv
                      rcases hv with hv | hv <;> simp at hv
                      exact absurd hv hv0
                    · intro v hv hne
                      have hvv : v = v0 := by simpa using hv.symm
                      subst hvv
                      constructor
                      · intro a ha
                        rw [hfa] at ha
                        exact absurd ha (by simp)
                      · intro _
                        exact ⟨rfl, rfl, rfl⟩
                  | some a0 =>
                    simp only [buildFieldEntry, if_neg hf, hl] at h
                    rw [if_neg hlen, if_neg hv0, hfa] at h
                    simp only [Except.ok.injEq] at h
                    subst h
                    refine ⟨?_, by intro hd; exact absurd hd (by simp), ?_⟩
                    · intro hv
                      rcases hv with hv | hv <;> simp at hv
                      exact absurd hv hv0
                    · intro v hv hne
                      have hvv : v = v0 := by simpa using hv.symm
                      subst hvv
                      constructor
                      · intro a ha
                        rw [hfa] at ha
                        have haa : a0 = a := by simpa using ha
                        exact ⟨rfl, by rw [haa]⟩
                      · intro ha
                        rw [hfa] at ha
                        exact absurd ha (by simp)

/-!
## C1 — action classification totality and correlation (corrected)

The spec's correlation invariant fails on a present-but-EMPTY raw value: JS
`if (value)` treats `""` as falsy, so the builder classifies such a field as
`delete` even though the value exists (the spec demands keep or none for any
present value).  The invariant holds once "absent" is amended to "absent or
empty".
-/

/-- C1 counterexample: a submission whose image field carries the raw value
`""` produces an entry with `value = some ""` and `action = delete`, which
satisfies none of the three cases of the spec's correlation invariant
(`c1Correlation`). -/
theorem c1_counterexample :
    ∃ rec ws, buildSubmMap ["photo"] submEmptyVal = .ok (rec, ws) ∧
      ∃ e, ("photo", e) ∈ rec.entries ∧ e.value = some "" ∧ e.action = Act.delete ∧
        ¬ c1Correlation submEmptyVal.attachments submEmptyVal.subId e := by
  refine ⟨_, _, rfl,
    ⟨{ value := some "", attachment := Option.none, action := Act.delete,
       subm_mapped_key := some "photo", warning := Option.none }, by decide, rfl, rfl, ?_⟩⟩
  intro hc
  rcases hc with ⟨h1, -, -⟩ | ⟨v, a, -, -, hk, -⟩ | ⟨v, -, -, hn, -⟩
  · exact absurd h1 (by decide)
  · exact absurd hk (by decide)
  · exact absurd hn (by decide)

/-- C1 (amended): for every field entry of a built per-record map, exactly
one action in {keep, delete, none} is assigned, and: a falsy raw value
(ABSENT OR EMPTY — the amendment) yields `delete` with null attachment; a
truthy value resolved by the matcher yields `keep` with that attachment; a
truthy value the matcher cannot resolve yields `none` with null attachment
and a warning referencing the record id, field name and value, collected in
the step's warnings. -/
theorem c1_action_classification (subm : Subm) (imgs : List String)
    (rec : SubmMapRec) (ws : List String)
    (h : buildSubmMap imgs subm = .ok (rec, ws)) :
    ∀ f e, (f, e) ∈ rec.entries →
      (e.action = Act.keep ∨ e.action = Act.delete ∨ e.action = Act.none) ∧
      ((e.value = Option.none ∨ e.value = some "") →
        e.action = Act.delete ∧ e.attachment = Option.none) ∧
      (∀ v, e.value = some v → v ≠ "" →
        (∀ a, findAttachment v subm.attachments subm.subId = .ok (some a) →
          e.action = Act.keep ∧ e.attachment = some a) ∧
        (findAttachment v subm.attachments subm.subId = .ok Option.none →
          e.action = Act.none ∧ e.attachment = Option.none ∧
          e.warning = some ("this field has an image name defined, but no attachment exist for it - record: "
            ++ toString subm.subId ++ ", field: " ++ f ++ ", value: " ++ v) ∧
          ("this field has an image name defined, but no attachment exist for it - record: "
            ++ toString subm.subId ++ ", field: " ++ f ++ ", value: " ++ v) ∈ ws)) := by
  intro f e hmem
  obtain ⟨-, hall⟩ := buildSubmMap_mem subm imgs rec ws h
  obtain ⟨-, hfe, hw⟩ := hall (f, e) hmem
  obtain ⟨hc1, -, hc3⟩ := buildFieldEntry_cases subm f e hfe
  refine ⟨by cases e.action <;> simp, hc1, ?_⟩
  intro v hv hne
  obtain ⟨hk, hn⟩ := hc3 v hv hne
  refine ⟨hk, ?_⟩
  intro hfa
  obtain ⟨ha1, ha2, ha3⟩ := hn hfa
  exact ⟨ha1, ha2, ha3, hw _ ha3⟩

/-- C1 witness: on the well-formed submission `submOk`, the matched field
`photoA` classifies as keep with the resolved attachment. -/
theorem c1_witness :
    ∃ rec ws, buildSubmMap ["photoA", "photoB"] submOk = .ok (rec, ws) ∧
      ∃ e, ("photoA", e) ∈ rec.entries ∧ e.action = Act.keep ∧ e.attachment = some attFix := by
  have h := c1_action_classification submOk ["photoA", "photoB"] recOk [] (by decide)
  refine ⟨recOk, [], by decide, ⟨entryKeepOk, by decide, ?_⟩⟩
  obtain ⟨-, -, h3⟩ := h "photoA" entryKeepOk (by decide)
  exact (h3 "a.jpg" rfl (by decide)).1 attFix (by decide)

/-!
## C10 — builder delete entries carry no (truthy) value; the cleaner's
delete set is empty (corrected)
-/

/-- An entry whose delete action implies a falsy value contributes nothing to
the cleaner's delete set. -/
theorem cleanerSetsEntry_deletes_eq (rid : Int) (sets : CSets) (e : ActionEntry)
    (he : e.action = Act.delete → (e.value = Option.none ∨ e.value = some "")) :
    (cleanerSetsEntry rid sets e).deletes = sets.deletes := by
  unfold cleanerSetsEntry
  cases hv : e.value with
  | none => rfl
  | some v =>
    by_cases hveq : v = ""
    · simp [hveq]
    · have hact : ¬ e.action = Act.delete := by
        intro had
        rcases he had with hx | hx <;> rw [hv] at hx
        · exact Option.noConfusion hx
        · exact hveq (by injection hx)
      simp [hveq, hact]

/-- The entry fold never grows the delete set when all entries have falsy
delete values. -/
theorem cleaner_entries_deletes_eq (rid : Int) :
    ∀ (es : List (String × ActionEntry)) (sets : CSets),
      (∀ p ∈ es, p.2.action = Act.delete → (p.2.value = Option.none ∨ p.2.value = some "")) →
      (es.foldl (fun s p => cleanerSetsEntry rid s p.2) sets).deletes = sets.deletes := by
  intro es
  induction es with
  | nil => intro sets _; rfl
  | cons p rest ih =>
    intro sets hall
    have h1 := cleanerSetsEntry_deletes_eq rid sets p.2 (hall p (List.mem_cons_self p rest))
    simp only [List.foldl_cons]
    rw [ih _ (fun q hq => hall q (List.mem_cons_of_mem p hq))]
    exact h1

/-- The record fold never grows the delete set when all entries of all
records have falsy delete values. -/
theorem cleanerSets_deletes_eq :
    ∀ (map : List SubmMapRec) (sets : CSets),
      (∀ r ∈ map, ∀ p ∈ r.entries, p.2.action = Act.delete →
        (p.2.value = Option.none ∨ p.2.value = some "")) →
      (map.foldl (fun sets r => r.entries.foldl (fun s p => cleanerSetsEntry r.rid s p.2) sets)
        sets).deletes = sets.deletes := by
  intro map
  induction map with
  | nil => intro sets _; rfl
  | cons r rest ih =>
    intro sets hall
    simp only [List.foldl_cons]
    rw [ih _ (fun q hq => hall q (List.mem_cons_of_mem r hq))]
    exact cleaner_entries_deletes_eq r.rid r.entries sets
      (hall r (List.mem_cons_self r rest))

/-- Every record of a built asset map comes from `buildSubmMap` on one of
the submissions. -/
theorem buildAssetMapGo_mem (imgs : List String) :
    ∀ (subs : List Subm) (ms : List SubmMapRec) (ws : List String)
      (mapr : List SubmMapRec) (ws' : List String),
      buildAssetMapGo imgs subs ms ws = .ok (mapr, ws') →
      ∀ r ∈ mapr, r ∈ ms ∨ ∃ s ∈ subs, ∃ w2, buildSubmMap imgs s = .ok (r, w2) := by
  intro subs
  induction subs with
  | nil =>
    intro ms ws mapr ws' h r hr
    simp only [buildAssetMapGo, Except.ok.injEq, Prod.mk.injEq] at h
    exact Or.inl (h.1 ▸ hr)
  | cons s rest ih =>
    intro ms ws mapr ws' h r hr
    cases hs : buildSubmMap imgs s with
    | error m => simp [buildAssetMapGo, hs] at h
    | ok rw =>
      obtain ⟨r0, w0⟩ := rw
      simp only [buildAssetMapGo, hs] at h
      rcases ih _ _ _ _ h r hr with hin | ⟨t, ht, w2, hw2⟩
      · rcases List.mem_append.mp hin with hms | hone
        · exact Or.inl hms
        · have hr0 : r = r0 := by simpa using hone
          exact Or.inr ⟨s, List.mem_cons_self s rest, w0, by rw [hr0]; exact hs⟩
      · exact Or.inr ⟨t, List.mem_cons_of_mem s ht, w2, hw2⟩


/-- C10 counterexample: a builder-produced map can hold a delete entry whose
`value` is NOT undefined — it is the defined empty string (JS-falsy), so
"each delete entry has an undefined value" is too strong. -/
theorem c10_counterexample :
    ∃ map ws, buildAssetMap ["photo"] [submEmptyVal] = .ok (map, ws) ∧
      ∃ r ∈ map, ∃ p ∈ r.entries, p.2.action = Act.delete ∧ p.2.value ≠ Option.none := by
  refine ⟨[recEmptyVal], [], by decide, ?_⟩
  decide

/-- C10 (amended): every delete entry of a builder-produced map has a FALSY
value (undefined or the empty string); consequently the ImageCleaner's
delete-name set — populated only from entries with a truthy value — is empty
for builder-produced maps, and the sweeper's exclusion test "file in
keep-names or delete-names" reduces to membership in the keep-name set
alone. -/
theorem c10_cleaner_delete_set_empty (imgs : List String) (subs : List Subm)
    (map : List SubmMapRec) (ws : List String)
    (h : buildAssetMap imgs subs = .ok (map, ws)) :
    (∀ r ∈ map, ∀ p ∈ r.entries, p.2.action = Act.delete →
      (p.2.value = Option.none ∨ p.2.value = some "")) ∧
    (cleanerSets map).deletes = [] ∧
    (∀ file, (file ∈ (cleanerSets map).keeps ∨ file ∈ (cleanerSets map).deletes) ↔
      file ∈ (cleanerSets map).keeps) := by
  have hall : ∀ r ∈ map, ∀ p ∈ r.entries, p.2.action = Act.delete →
      (p.2.value = Option.none ∨ p.2.value = some "") := by
    intro r hr p hp hact
    rcases buildAssetMapGo_mem imgs subs [] [] map ws h r hr with hin | ⟨s, -, w2, hw2⟩
    · exact absurd hin (List.not_mem_nil r)
    · obtain ⟨-, hmem⟩ := buildSubmMap_mem s imgs r w2 hw2
      obtain ⟨-, hfe, -⟩ := hmem p hp
      exact (buildFieldEntry_cases s p.1 p.2 hfe).2.1 hact
  have hdel : (cleanerSets map).deletes = [] := by
    unfold cleanerSets
    exact cleanerSets_deletes_eq map { keeps := [], deletes := [], nones := [] } hall
  refine ⟨hall, hdel, ?_⟩
  intro file
  rw [hdel]
  simp

/-- C10 witness: on the concrete submission `submOk` the built map's cleaner
delete set is empty and the exclusion test degenerates to the keep set. -/
theorem c10_witness :
    ∃ map ws, buildAssetMap ["photoA", "photoB"] [submOk] = .ok (map, ws) ∧
      (cleanerSets map).deletes = [] ∧
      (∀ file, (file ∈ (cleanerSets map).keeps ∨ file ∈ (cleanerSets map).deletes) ↔
        file ∈ (cleanerSets map).keeps) := by
  refine ⟨[recOk], [], by decide, ?_, ?_⟩
  · exact (c10_cleaner_delete_set_empty ["photoA", "photoB"] [submOk] [recOk] [] (by decide)).2.1
  · exact (c10_cleaner_delete_set_empty ["photoA", "photoB"] [submOk] [recOk] [] (by decide)).2.2

/-!
## C6 — the attachment matcher
-/

/-- A result of the downward scan is an occurrence below the start index. -/
theorem lastOccAux_eq_some (s pat : List Char) :
    ∀ (i j : Nat), lastOccAux s pat i = some j →
      j ≤ i ∧ pat.isPrefixOf (s.drop j) = true := by
  intro i
  induction i with
  | zero =>
    intro j h
    unfold lastOccAux at h
    split at h
    · obtain rfl : (0 : Nat) = j := by injection h
      exact ⟨Nat.le_refl 0, by simpa using (by assumption : pat.isPrefixOf s = true)⟩
    · exact absurd h (by simp)
  | succ i ih =>
    intro j h
    unfold lastOccAux at h
    split at h
    · obtain rfl : i + 1 = j := by injection h
      exact ⟨Nat.le_refl _, by assumption⟩
    · obtain ⟨h1, h2⟩ := ih j h
      exact ⟨Nat.le_succ_of_le h1, h2⟩

/-- The downward scan returns the greatest occurrence index below the start
index. -/
theorem lastOccAux_greatest (s pat : List Char) :
    ∀ (i j : Nat), lastOccAux s pat i = some j →
      ∀ k, k ≤ i → pat.isPrefixOf (s.drop k) = true → k ≤ j := by
  intro i
  induction i with
  | zero =>
    intro j h k hk _
    omega
  | succ i ih =>
    intro j h k hk hpk
    unfold lastOccAux at h
    split at h
    · obtain rfl : i + 1 = j := by injection h
      exact hk
    · rcases Nat.lt_or_ge k (i + 1) with hlt | hge
      · exact ih j h k (by omega) hpk
      · have hk1 : k = i + 1 := by omega
        subst hk1
        exact absurd hpk (by simpa using (by assumption : ¬ pat.isPrefixOf (s.drop (i + 1)) = true))

/-- A failed downward scan means there is no occurrence at any index below
the start index. -/
theorem lastOccAux_eq_none (s pat : List Char) :
    ∀ (i : Nat), lastOccAux s pat i = Option.none →
      ∀ k, k ≤ i → ¬ pat.isPrefixOf (s.drop k) = true := by
  intro i
  induction i with
  | zero =>
    intro h k hk
    have hk0 : k = 0 := by omega
    subst hk0
    unfold lastOccAux at h
    split at h
    · exact absurd h (by simp)
    · simpa using (by assumption : ¬ pat.isPrefixOf s = true)
  | succ i ih =>
    intro h k hk
    unfold lastOccAux at h
    split at h
    · exact absurd h (by simp)
    · rcases Nat.lt_or_ge k (i + 1) with hlt | hge
      · exact ih h k (by omega)
      · have hk1 : k = i + 1 := by omega
        subst hk1
        simpa using (by assumption : ¬ pat.isPrefixOf (s.drop (i + 1)) = true)

/-- The filename condition of the matcher — `lastIndexOf(name) ≠ -1` and
`lastIndexOf(name) = filename.length - name.length` — holds exactly when the
name is a suffix of the filename. -/
theorem jsLastIndexOf_suffix (s pat : String) :
    ((jsLastIndexOf s pat != -1) &&
     (jsLastIndexOf s pat == (s.data.length : Int) - (pat.data.length : Int))) = true
      ↔ pat.data.isSuffixOf s.data = true := by
  unfold jsLastIndexOf
  cases h : lastOccAux s.data pat.data s.data.length with
  | none =>
    simp only [bne_self_eq_false, Bool.false_and, Bool.false_eq_true, false_iff]
    intro hsuf
    obtain ⟨t, ht⟩ := List.isSuffixOf_iff_suffix.mp hsuf
    have hocc : pat.data.isPrefixOf (s.data.drop (s.data.length - pat.data.length)) = true := by
      have hlen : t.length = s.data.length - pat.data.length := by
        have h2 := congrArg List.length ht
        simp only [List.length_append] at h2
        omega
      have hdrop : s.data.drop (s.data.length - pat.data.length) = pat.data := by
        rw [← hlen, ← ht]
        exact List.drop_left t pat.data
      rw [hdrop]
      exact List.isPrefixOf_iff_prefix.mpr (List.prefix_refl pat.data)
    exact lastOccAux_eq_none s.data pat.data s.data.length h
      (s.data.length - pat.data.length) (Nat.sub_le _ _) hocc
  | some j =>
    obtain ⟨hj_le, hj_pref⟩ := lastOccAux_eq_some s.data pat.data s.data.length j h
    have hpref := List.isPrefixOf_iff_prefix.mp hj_pref
    have hlen_drop : (List.drop j s.data).length = s.data.length - j := List.length_drop j s.data
    have hplen : pat.data.length ≤ s.data.length - j := by
      have h2 := hpref.length_le
      rw [hlen_drop] at h2
      exact h2
    have hne : ((j : Int) != -1) = true := by
      simp [bne]
    rw [hne, Bool.true_and]
    constructor
    · intro heq
      have hj : (j : Int) = (s.data.length : Int) - (pat.data.length : Int) := by
        simpa using heq
      have heql : pat.data = List.drop j s.data := by
        refine hpref.eq_of_length ?_
        rw [hlen_drop]
        omega
      rw [List.isSuffixOf_iff_suffix, heql]
      exact List.drop_suffix j s.data
    · intro hsuf
      obtain ⟨t, ht⟩ := List.isSuffixOf_iff_suffix.mp hsuf
      have hlen : t.length = s.data.length - pat.data.length := by
        have h2 := congrArg List.length ht
        simp only [List.length_append] at h2
        omega
      have hplens : pat.data.length ≤ s.data.length := by
        have h2 := congrArg List.length ht
        simp only [List.length_append] at h2
        omega
      have hocc : pat.data.isPrefixOf (s.data.drop (s.data.length - pat.data.length)) = true := by
        have hdrop : s.data.drop (s.data.length - pat.data.length) = pat.data := by
          rw [← hlen, ← ht]
          exact List.drop_left t pat.data
        rw [hdrop]
        exact List.isPrefixOf_iff_prefix.mpr (List.prefix_refl pat.data)
      have hge : s.data.length - pat.data.length ≤ j :=
        lastOccAux_greatest s.data pat.data s.data.length j h _ (Nat.sub_le _ _) hocc
      have hje : j = s.data.length - pat.data.length := by omega
      simp only [hje, beq_iff_eq]
      omega

/-- The matcher's per-attachment filter accepts exactly the image-typed
attachments whose filename ends with the sought name. -/
theorem imageQualifies_iff (name : String) (a : Attachment) :
    imageQualifies name a = true ↔
      ("image".data.isPrefixOf a.mimetype.data = true ∧
       name.data.isSuffixOf a.filename.data = true) := by
  unfold imageQualifies
  rw [Bool.and_eq_true]
  rw [jsLastIndexOf_suffix a.filename name]

/-- Full specification of the matcher's scan loop: given well-formed
attachment fields, it never throws; it returns null exactly when no candidate
(and no accumulator) qualifies; and any returned candidate qualifies and has
the maximal id among qualifying candidates. -/
theorem findAttachmentGo_spec (name : String) :
    ∀ (l : List Attachment) (acc : Option Attachment),
      (∀ a ∈ l, a.mimetype ≠ "" ∧ a.download_url ≠ "" ∧ a.filename ≠ "") →
      ∃ r, findAttachmentGo name l acc = .ok r ∧
        (r = Option.none ↔ (acc = Option.none ∧ ∀ a ∈ l, ¬ imageQualifies name a = true)) ∧
        (∀ a, r = some a →
          ((a ∈ l ∧ imageQualifies name a = true) ∨ acc = some a) ∧
          (∀ b ∈ l, imageQualifies name b = true → b.id ≤ a.id) ∧
          (∀ b, acc = some b → b.id ≤ a.id)) := by
  intro l
  induction l with
  | nil =>
    intro acc _
    refine ⟨acc, rfl, by simp, ?_⟩
    intro a ha
    refine ⟨Or.inr ha, by simp, ?_⟩
    intro b hb
    rw [ha] at hb
    obtain rfl : a = b := by injection hb
    exact Int.le_refl a.id
  | cons a0 rest ih =>
    intro acc hall
    obtain ⟨hm, hd, hf⟩ := hall a0 (List.mem_cons_self a0 rest)
    have hrest : ∀ a ∈ rest, a.mimetype ≠ "" ∧ a.download_url ≠ "" ∧ a.filename ≠ "" :=
      fun a ha => hall a (List.mem_cons_of_mem a0 ha)
    by_cases hq : imageQualifies name a0 = true
    · -- a0 qualifies: the accumulator is a0 or keeps the greater id
      cases acc with
      | none =>
        obtain ⟨r, hr, hiff, hmax⟩ := ih (some a0) hrest
        refine ⟨r, by simp [findAttachmentGo, hm, hd, hf, hq, hr], ?_, ?_⟩
        · rw [hiff]
          simp [hq]
        · intro a ha
          obtain ⟨h1, h2, h3⟩ := hmax a ha
          have hid : a0.id ≤ a.id := h3 a0 rfl
          refine ⟨?_, ?_, by intro b hb; exact absurd hb (by simp)⟩
          · rcases h1 with ⟨hal, haq⟩ | hacc
            · exact Or.inl ⟨List.mem_cons_of_mem a0 hal, haq⟩
            · obtain rfl : a0 = a := by injection hacc
              exact Or.inl ⟨List.mem_cons_self a0 rest, hq⟩
          · intro b hb hbq
            rcases List.mem_cons.mp hb with rfl | hbr
            · exact hid
            · exact h2 b hbr hbq
      | some r0 =>
        by_cases hgt : a0.id > r0.id
        · obtain ⟨r, hr, hiff, hmax⟩ := ih (some a0) hrest
          refine ⟨r, by simp [findAttachmentGo, hm, hd, hf, hq, hgt, hr], ?_, ?_⟩
          · rw [hiff]
            simp [hq]
          · intro a ha
            obtain ⟨h1, h2, h3⟩ := hmax a ha
            have hid : a0.id ≤ a.id := h3 a0 rfl
            refine ⟨?_, ?_, ?_⟩
            · rcases h1 with ⟨hal, haq⟩ | hacc
              · exact Or.inl ⟨List.mem_cons_of_mem a0 hal, haq⟩
              · obtain rfl : a0 = a := by injection hacc
                exact Or.inl ⟨List.mem_cons_self a0 rest, hq⟩
            · intro b hb hbq
              rcases List.mem_cons.mp hb with rfl | hbr
              · exact hid
              · exact h2 b hbr hbq
            · intro b hb
              obtain rfl : r0 = b := by injection hb
              omega
        · obtain ⟨r, hr, hiff, hmax⟩ := ih (some r0) hrest
          refine ⟨r, by simp [findAttachmentGo, hm, hd, hf, hq, hgt, hr], ?_, ?_⟩
          · rw [hiff]
            simp [hq]
          · intro a ha
            obtain ⟨h1, h2, h3⟩ := hmax a ha
            have hid : r0.id ≤ a.id := h3 r0 rfl
            refine ⟨?_, ?_, ?_⟩
            · rcases h1 with ⟨hal, haq⟩ | hacc
              · exact Or.inl ⟨List.mem_cons_of_mem a0 hal, haq⟩
              · exact Or.inr hacc
            · intro b hb hbq
              rcases List.mem_cons.mp hb with rfl | hbr
              · omega
              · exact h2 b hbr hbq
            · intro b hb
              obtain rfl : r0 = b := by injection hb
              exact hid
    · -- a0 does not qualify: skipped
      obtain ⟨r, hr, hiff, hmax⟩ := ih acc hrest
      refine ⟨r, by simp [findAttachmentGo, hm, hd, hf, hq, hr], ?_, ?_⟩
      · rw [hiff]
        constructor
        · rintro ⟨h1, h2⟩
          refine ⟨h1, ?_⟩
          intro a ha
          rcases List.mem_cons.mp ha with rfl | har
          · exact hq
          · exact h2 a har
        · rintro ⟨h1, h2⟩
          exact ⟨h1, fun a ha => h2 a (List.mem_cons_of_mem a0 ha)⟩
      · intro a ha
        obtain ⟨h1, h2, h3⟩ := hmax a ha
        refine ⟨?_, ?_, h3⟩
        · rcases h1 with ⟨hal, haq⟩ | hacc
          · exact Or.inl ⟨List.mem_cons_of_mem a0 hal, haq⟩
          · exact Or.inr hacc
        · intro b hb hbq
          rcases List.mem_cons.mp hb with rfl | hbr
          · exact absurd hbq hq
          · exact h2 b hbr hbq

/-- C6: with a non-empty name and well-formed attachment fields,
`findAttachment` returns without throwing; it returns null exactly when no
attachment qualifies; a qualifying attachment must have an image mimetype and
a filename ending exactly in the given name (suffix alignment); and the
returned attachment qualifies and carries the strictly greatest id among
qualifying attachments (given the ids are unique).  The embedding is a pure
function, so the matcher is side-effect free by construction. -/
theorem c6_findAttachment_matcher (name : String) (atts : List Attachment) (rid : Int)
    (hname : name ≠ "")
    (hfields : ∀ a ∈ atts, a.mimetype ≠ "" ∧ a.download_url ≠ "" ∧ a.filename ≠ "") :
    ∃ r, findAttachment name atts rid = .ok r ∧
      (r = Option.none ↔ ∀ a ∈ atts, ¬ imageQualifies name a = true) ∧
      (∀ a, r = some a → a ∈ atts ∧ imageQualifies name a = true ∧
        (∀ b ∈ atts, imageQualifies name b = true → b.id ≤ a.id) ∧
        ((atts.map (fun x => x.id)).Nodup →
          ∀ b ∈ atts, imageQualifies name b = true → b ≠ a → b.id < a.id)) ∧
      (∀ a, imageQualifies name a = true ↔
        ("image".data.isPrefixOf a.mimetype.data = true ∧
         name.data.isSuffixOf a.filename.data = true)) := by
  obtain ⟨r, hr, hiff, hmax⟩ := findAttachmentGo_spec name atts Option.none hfields
  refine ⟨r, by simp [findAttachment, hname, hr], ?_, ?_, fun a => imageQualifies_iff name a⟩
  · rw [hiff]
    simp
  · intro a ha
    obtain ⟨h1, h2, -⟩ := hmax a ha
    have hmem : a ∈ atts ∧ imageQualifies name a = true := by
      rcases h1 with h | h
      · exact h
      · exact absurd h (by simp)
    refine ⟨hmem.1, hmem.2, h2, ?_⟩
    intro hnd b hb hbq hne
    have hle := h2 b hb hbq
    rcases Int.lt_or_le b.id a.id with hlt | hge
    · exact hlt
    · have hbeq : b.id = a.id := by omega
      exact absurd (List.inj_on_of_nodup_map hnd hb hmem.1 hbeq) hne

/-- C6 witness: on two image attachments sharing the suffix `a.jpg`, the
matcher succeeds and any returned attachment is a qualifying member with the
strictly greatest id — concretely, `attFixB` (id 9) wins over `attFix`
(id 3). -/
theorem c6_witness :
    ∃ r, findAttachment "a.jpg" [attFix, attFixB] 5 = .ok r ∧ r = some attFixB := by
  obtain ⟨r, h1, -, h3, -⟩ := c6_findAttachment_matcher "a.jpg" [attFix, attFixB] 5
    (by decide) (by decide)
  refine ⟨r, h1, ?_⟩
  have hr : findAttachmentGo "a.jpg" [attFix, attFixB] Option.none = .ok (some attFixB) := by
    decide
  have : findAttachment "a.jpg" [attFix, attFixB] 5 = .ok (some attFixB) := by
    simp [findAttachment, hr]
  rw [this] at h1
  injection h1 with h1
  exact h1.symm

/-!
## C2 — freshness evaluation of the keep branch
-/

/-- Characterization of the executor's freshness decision on an existing
file and a present state record. -/
theorem imgIsUpToDate_eq_true_iff (hf : Content → HashVal) (c : Content) (m : StoredMap)
    (T : String) (aid : Int) :
    imgIsUpToDate hf (some c) (some m) T aid = true ↔
      (isValidAttachmentMap m = true ∧ m.imageName = some T ∧ m.attachmentId = some aid ∧
       ∃ ii, m.imgInfo = some ii ∧ ∃ h, ii.hash = some h ∧ hf c = h) := by
  unfold imgIsUpToDate
  by_cases hv : isValidAttachmentMap m = true
  · by_cases hn : m.imageName = some T
    · by_cases ha : m.attachmentId = some aid
      · cases hii : m.imgInfo with
        | none => simp [hv, hn, ha, hii]
        | some ii =>
          cases hh : ii.hash with
          | none => simp [hv, hn, ha, hii, hh]
          | some h =>
            simp [hv, hn, ha, hii, hh]
            exact eq_comm
      · simp [hv, hn, ha]
    · simp [hv, hn]
  · simp [hv]

/-- C2: for a keep entry (with resolved attachment, fetchable URL and no
duplicate-name collision), the executor classifies the image as up to date —
doing no download — exactly when the spec's freshness conditions
(`specFreshness`) hold: the local file exists, a structurally valid state
record exists, its stored image name equals the record-id-prefixed expected
filename, its stored attachment id equals the currently resolved attachment
id, and the recomputed content hash equals the stored hash.  When the file is
missing or any condition fails, the image is downloaded. -/
theorem c2_freshness_evaluation (cfg : Cfg) (st : St) (j : Job) (a : Attachment)
    (hact : j.entry.action = Act.keep)
    (hatt : j.entry.attachment = some a)
    (hurl : a.download_url ≠ "")
    (hdup : jsName j.rid j.entry.value ∉ st.keepNames)
    (c0 : Content) (hfetch : cfg.fetch a.download_url = some c0) :
    ∃ st', execEntry cfg st j = .ok st' ∧
      (specFreshness cfg st j a →
        st'.results = st.results ++ [(j.rid, j.fieldKey, Outcome.kept)] ∧
        st'.upToDate = st.upToDate + 1 ∧ st'.downloads = st.downloads ∧
        (∀ n, st'.fs n = st.fs n)) ∧
      (¬ specFreshness cfg st j a →
        st'.results = st.results ++ [(j.rid, j.fieldKey, Outcome.downloaded)] ∧
        st'.downloads = st.downloads + 1) := by
  have hcond : ((st.fs (jsName j.rid j.entry.value)).isSome = true ∧
      imgIsUpToDate cfg.hashFn (st.fs (jsName j.rid j.entry.value))
        (st.store (j.rid, j.fieldKey)) (jsName j.rid j.entry.value) a.id = true)
      ↔ specFreshness cfg st j a := by
    cases hc : st.fs (jsName j.rid j.entry.value) with
    | none => simp [specFreshness, imgIsUpToDate, hc]
    | some c =>
      cases hs : st.store (j.rid, j.fieldKey) with
      | none => simp [specFreshness, imgIsUpToDate, hc, hs]
      | some m =>
        rw [imgIsUpToDate_eq_true_iff]
        simp only [specFreshness, hc, hs, Option.isSome_some, true_and, Option.some.injEq]
        constructor
        · rintro ⟨h1, h2, h3, ii, h4, h, h5, h6⟩
          exact ⟨c, rfl, m, rfl, h1, h2, h3, ii, h, h4, h5, h6⟩
        · rintro ⟨c', hc', m', hm', h1, h2, h3, ii, h, h4, h5, h6⟩
          subst hc'
          cases hm'
          exact ⟨h1, h2, h3, ii, h4, h, h5, h6⟩
  refine ⟨execEntryRun cfg st j, by simp [execEntry, hatt, hurl], ?_, ?_⟩
  · intro hfresh
    have hb := hcond.mpr hfresh
    simp only [execEntryRun, hact, execKeep, hatt]
    rw [if_neg hdup, if_pos hb]
    exact ⟨rfl, rfl, rfl, fun n => rfl⟩
  · intro hfresh
    have hb := (not_congr hcond).mpr hfresh
    simp only [execEntryRun, hact, execKeep, hatt]
    rw [if_neg hdup, if_neg hb, hfetch]
    exact ⟨rfl, rfl⟩

/-- C2 witness: with an empty store, a keep entry is not fresh, so the image
is downloaded on the concrete state. -/
theorem c2_witness :
    ∃ st', execEntry cfgFix stFix jobKeepFix = .ok st' ∧
      st'.results = stFix.results ++ [(7, "g", Outcome.downloaded)] ∧
      st'.downloads = stFix.downloads + 1 := by
  obtain ⟨st', h1, -, h3⟩ := c2_freshness_evaluation cfgFix stFix jobKeepFix attFix
    (by decide) (by decide) (by decide) (by decide) [7] rfl
  have hnf : ¬ specFreshness cfgFix stFix jobKeepFix attFix := by
    unfold specFreshness
    rintro ⟨c, -, m, hm, -⟩
    have : stFix.store (7, "g") = Option.none := by decide
    rw [show jobKeepFix.rid = (7 : Int) from rfl, show jobKeepFix.fieldKey = "g" from rfl] at hm
    rw [this] at hm
    exact Option.noConfusion hm
  obtain ⟨hr, hd⟩ := h3 hnf
  exact ⟨st', h1, hr, hd⟩

/-!
## C5 — duplicate-name detection
-/

/-- C5: within one asset run, (1) a keep entry whose computed target filename
was already claimed by a previous keep ends as a per-entry error — the error
is caught locally (the entry is recorded, the error counter bumped, the
filesystem untouched so the first file is not overwritten, nothing
downloaded) and the run continues with the next entry; (2) a delete entry
whose stored filename was already claimed by a keep ends the same way; (3) so
does a delete entry whose stored filename was already claimed by a previous
delete.  None of these aborts the whole run. -/
theorem c5_duplicate_name_detection (cfg : Cfg) (st : St) (j : Job) (rest : List Job) :
    (∀ a, j.entry.action = Act.keep → j.entry.attachment = some a → a.download_url ≠ "" →
      jsName j.rid j.entry.value ∈ st.keepNames →
      ∃ st', execEntry cfg st j = .ok st' ∧
        st'.results = st.results ++ [(j.rid, j.fieldKey,
          Outcome.err ("in action 'keep': image name is duplicated: " ++ jsName j.rid j.entry.value))] ∧
        st'.errors = st.errors + 1 ∧ (∀ n, st'.fs n = st.fs n) ∧
        st'.downloads = st.downloads ∧
        execJobs cfg st (j :: rest) = execJobs cfg st' rest) ∧
    (∀ m, j.entry.action = Act.delete → j.entry.attachment = Option.none →
      st.store (j.rid, j.fieldKey) = some m → isValidAttachmentMap m = true →
      jsStr m.imageName ∈ st.keepNames →
      ∃ st', execEntry cfg st j = .ok st' ∧
        st'.results = st.results ++ [(j.rid, j.fieldKey,
          Outcome.err ("in action 'delete': image name is duplicated in to-keep list: " ++ jsStr m.imageName))] ∧
        st'.errors = st.errors + 1 ∧ (∀ n, st'.fs n = st.fs n) ∧ st'.deletes = st.deletes ∧
        execJobs cfg st (j :: rest) = execJobs cfg st' rest) ∧
    (∀ m, j.entry.action = Act.delete → j.entry.attachment = Option.none →
      st.store (j.rid, j.fieldKey) = some m → isValidAttachmentMap m = true →
      jsStr m.imageName ∉ st.keepNames → jsStr m.imageName ∈ st.deleteNames →
      ∃ st', execEntry cfg st j = .ok st' ∧
        st'.results = st.results ++ [(j.rid, j.fieldKey,
          Outcome.err ("in action 'delete': image name is duplicated in to-delete list: " ++ jsStr m.imageName))] ∧
        st'.errors = st.errors + 1 ∧ (∀ n, st'.fs n = st.fs n) ∧ st'.deletes = st.deletes ∧
        execJobs cfg st (j :: rest) = execJobs cfg st' rest) := by
  refine ⟨?_, ?_, ?_⟩
  · intro a hact hatt hurl hk
    have hok : execEntry cfg st j = .ok (execEntryRun cfg st j) := by
      simp [execEntry, hatt, hurl]
    refine ⟨execEntryRun cfg st j, hok, ?_, ?_, ?_, ?_, by simp [execJobs, hok]⟩ <;>
      simp only [execEntryRun, hact, execKeep, hatt] <;>
      rw [if_pos hk] <;>
      simp [errResult]
  · intro m hact hatt hs hv hk
    have hok : execEntry cfg st j = .ok (execEntryRun cfg st j) := by
      simp [execEntry, hatt]
    refine ⟨execEntryRun cfg st j, hok, ?_, ?_, ?_, ?_, by simp [execJobs, hok]⟩ <;>
      simp only [execEntryRun, hact, execDelete, hs, hv, if_true] <;>
      rw [if_pos hk] <;>
      simp [errResult]
  · intro m hact hatt hs hv hk hd
    have hok : execEntry cfg st j = .ok (execEntryRun cfg st j) := by
      simp [execEntry, hatt]
    refine ⟨execEntryRun cfg st j, hok, ?_, ?_, ?_, ?_, by simp [execJobs, hok]⟩ <;>
      simp only [execEntryRun, hact, execDelete, hs, hv, if_true] <;>
      rw [if_neg hk, if_pos hd] <;>
      simp [errResult]

/-- C5 witness: concrete collisions of all three kinds on the fixture state,
each ending as a caught per-entry error with an unchanged filesystem. -/
theorem c5_witness :
    (∃ st', execEntry cfgFix { stFix with keepNames := ["7_b.jpg"] } jobKeepFix = .ok st' ∧
      st'.errors = stFix.errors + 1 ∧ st'.downloads = stFix.downloads) ∧
    (∃ st', execEntry cfgFix { stFix with keepNames := ["7_a.jpg"] } jobDelFix = .ok st' ∧
      st'.errors = stFix.errors + 1 ∧ st'.deletes = stFix.deletes) ∧
    (∃ st', execEntry cfgFix { stFix with deleteNames := ["7_a.jpg"] } jobDelFix = .ok st' ∧
      st'.errors = stFix.errors + 1 ∧ st'.deletes = stFix.deletes) := by
  refine ⟨?_, ?_, ?_⟩
  · obtain ⟨st', h1, -, h3, -, h5, -⟩ :=
      (c5_duplicate_name_detection cfgFix { stFix with keepNames := ["7_b.jpg"] } jobKeepFix []).1
        attFix (by decide) (by decide) (by decide) (by decide)
    exact ⟨st', h1, h3, h5⟩
  · obtain ⟨st', h1, -, h3, -, h5, -⟩ :=
      (c5_duplicate_name_detection cfgFix { stFix with keepNames := ["7_a.jpg"] } jobDelFix []).2.1
        smapFix (by decide) (by decide) (by decide) (by decide) (by decide)
    exact ⟨st', h1, h3, h5⟩
  · obtain ⟨st', h1, -, h3, -, h5, -⟩ :=
      (c5_duplicate_name_detection cfgFix { stFix with deleteNames := ["7_a.jpg"] } jobDelFix []).2.2
        smapFix (by decide) (by decide) (by decide) (by decide) (by decide) (by decide)
    exact ⟨st', h1, h3, h5⟩

/-!
## C7 — idempotent convergence

The proof proceeds in two sweeps.  The first-run invariant `Inv1` records
that after a prefix of the job list: untouched names keep their initial
file, non-keep keys keep their initial state record, every processed keep
job is `Fresh` (valid state record matching name/id/hash with the bytes on
disk), every processed delete job has resolved deterministically from the
initial state, and the guard lists mirror `keepTargets`/`delNames`.  The
second-run invariant `Inv2` then shows the second run never touches the
disk, downloads nothing and deletes nothing.
-/

/-- An entry with a non-empty attachment URL (or no attachment) never trips
the step-aborting `check`s, so the executor returns normally. -/
theorem execEntry_ok (cfg : Cfg) (st : St) (j : Job)
    (hurl : ∀ a, j.entry.attachment = some a → a.download_url ≠ "") :
    execEntry cfg st j = .ok (execEntryRun cfg st j) := by
  cases hatt : j.entry.attachment with
  | none => simp [execEntry, hatt]
  | some a => simp [execEntry, hatt, hurl a hatt]

theorem keepTargets_append (l1 l2 : List Job) :
    keepTargets (l1 ++ l2) = keepTargets l1 ++ keepTargets l2 := by
  simp [keepTargets, List.filter_append]

theorem keepTargets_cons_keep (j : Job) (l : List Job) (h : j.entry.action = Act.keep) :
    keepTargets (j :: l) = jsName j.rid j.entry.value :: keepTargets l := by
  simp [keepTargets, List.filter_cons, h]

theorem keepTargets_cons_other (j : Job) (l : List Job) (h : ¬ j.entry.action = Act.keep) :
    keepTargets (j :: l) = keepTargets l := by
  simp [keepTargets, List.filter_cons, h]

theorem delNames_append (s0 : Int × String → Option StoredMap) (l1 l2 : List Job) :
    delNames s0 (l1 ++ l2) = delNames s0 l1 ++ delNames s0 l2 := by
  simp [delNames]

theorem delNames_cons (s0 : Int × String → Option StoredMap) (j : Job) (l : List Job) :
    delNames s0 (j :: l) =
      (match validDelName s0 j with
        | some x => x :: delNames s0 l
        | Option.none => delNames s0 l) := by
  simp only [delNames, List.filterMap_cons]
  cases validDelName s0 j <;> rfl

/-- The middle element of a nodup list is in neither side. -/
theorem nodup_middle_split {α : Type _} {l1 l2 : List α} {a : α}
    (h : (l1 ++ a :: l2).Nodup) : a ∉ l1 ∧ a ∉ l2 := by
  have h2 := List.nodup_middle.mp h
  have h3 := List.nodup_cons.mp h2
  constructor
  · intro hmem; exact h3.1 (List.mem_append.mpr (Or.inl hmem))
  · intro hmem; exact h3.1 (List.mem_append.mpr (Or.inr hmem))

/-- A string of length zero is the empty string. -/
theorem string_eq_empty_of_length_eq_zero (t : String) (h : t.length = 0) : t = "" := by
  have h2 : t.data.length = 0 := h
  exact String.ext (List.length_eq_zero.mp h2)

/-- `jsName` is never the empty string (it contains the underscore). -/
theorem jsName_ne_empty (rid : Int) (v : Option String) : jsName rid v ≠ "" := by
  intro h
  have hl := congrArg String.length h
  rw [jsName, String.length_append, String.length_append] at hl
  have h1 : ("_" : String).length = 1 := rfl
  have h0 : ("" : String).length = 0 := rfl
  rw [h1, h0] at hl
  omega

/-- Appending a non-empty string on the right keeps a string non-empty. -/
theorem append_right_ne_empty (s t : String) (h : t ≠ "") : s ++ t ≠ "" := by
  intro he
  have hl := congrArg String.length he
  rw [String.length_append] at hl
  have h0 : ("" : String).length = 0 := rfl
  rw [h0] at hl
  exact h (string_eq_empty_of_length_eq_zero t (by omega))

/-- Appending a non-empty string on the left keeps a string non-empty. -/
theorem append_left_ne_empty (s t : String) (h : s ≠ "") : s ++ t ≠ "" := by
  intro he
  have hl := congrArg String.length he
  rw [String.length_append] at hl
  have h0 : ("" : String).length = 0 := rfl
  rw [h0] at hl
  exact h (string_eq_empty_of_length_eq_zero s (by omega))

/-- The JS `a ? a : b` fallback yields a truthy string when `b` is a
truthy string. -/
theorem strExists_jsOrStr (o : Option String) (mt : String) (h : mt ≠ "") :
    strExists (jsOrStr o (some mt)) = true := by
  unfold jsOrStr strExists
  cases o with
  | none => simp [h]
  | some s =>
    by_cases hs : s = ""
    · simp [hs, h]
    · simp [hs]

/-- A keep job contributes its target to `keepTargets`. -/
theorem mem_keepTargets (jobs : List Job) (j : Job) (hj : j ∈ jobs)
    (h : j.entry.action = Act.keep) : jsName j.rid j.entry.value ∈ keepTargets jobs := by
  unfold keepTargets
  exact List.mem_map_of_mem _ (List.mem_filter.mpr ⟨hj, by simp [h]⟩)

/-- A delete job with a valid initial record contributes its stored name to
`delNames`. -/
theorem mem_delNames (s0 : Int × String → Option StoredMap) (jobs : List Job) (j : Job)
    (hj : j ∈ jobs) (hx : validDelName s0 j = some x) : x ∈ delNames s0 jobs := by
  unfold delNames
  exact List.mem_filterMap.mpr ⟨j, hj, hx⟩

/-- `Inv1` only inspects the four persistent components of the state, so it
transfers across counter/result/diagnostic updates. -/
theorem Inv1_congr (cfg : Cfg) (st0 : St) (pre : List Job) (st st' : St)
    (hfs : st'.fs = st.fs) (hstore : st'.store = st.store)
    (hkn : st'.keepNames = st.keepNames) (hdn : st'.deleteNames = st.deleteNames)
    (h : Inv1 cfg st0 pre st) : Inv1 cfg st0 pre st' := by
  obtain ⟨h1, h2, h3, h4, h5, h6⟩ := h
  refine ⟨fun n a b => by rw [hfs]; exact h1 n a b,
          fun k a => by rw [hstore]; exact h2 k a, ?_, ?_,
          fun x => by rw [hkn]; exact h5 x,
          fun x => by rw [hdn]; exact h6 x⟩
  · intro j' hj' hk a ha
    obtain ⟨m, c, hm1, hm2, hm3, hm4, hm5, hm6⟩ := h3 j' hj' hk a ha
    exact ⟨m, c, by rw [hstore]; exact hm1, hm2, hm3, hm4, by rw [hfs]; exact hm5, hm6⟩
  · intro j' hj' hk m hm hv
    obtain ⟨d1, d2⟩ := h4 j' hj' hk m hm hv
    refine ⟨fun hx => by rw [hfs]; exact d1 hx, ?_⟩
    intro c hc
    obtain ⟨e1, e2⟩ := d2 c hc
    exact ⟨fun hh => by rw [hfs]; exact e1 hh, fun hh => by rw [hfs]; exact e2 hh⟩

/-- Extending the processed prefix with a job that is neither a keep nor a
valid delete leaves `Inv1` untouched. -/
theorem Inv1_extend_inert (cfg : Cfg) (st0 : St) (pre : List Job) (j : Job) (st : St)
    (hnk : ¬ j.entry.action = Act.keep)
    (hnd : validDelName st0.store j = Option.none)
    (hdel : j.entry.action = Act.delete →
      ∀ m, st0.store (j.rid, j.fieldKey) = some m → ¬ isValidAttachmentMap m = true)
    (h : Inv1 cfg st0 pre st) : Inv1 cfg st0 (pre ++ [j]) st := by
  obtain ⟨h1, h2, h3, h4, h5, h6⟩ := h
  have hkt : keepTargets (pre ++ [j]) = keepTargets pre := by
    rw [keepTargets_append, keepTargets_cons_other j [] hnk]
    simp [keepTargets]
  have hdn : delNames st0.store (pre ++ [j]) = delNames st0.store pre := by
    rw [delNames_append, delNames_cons, hnd]
    simp [delNames]
  refine ⟨fun n a b => h1 n (by rw [hkt] at a; exact a) (by rw [hdn] at b; exact b),
          ?_, ?_, ?_,
          fun x => by rw [hkt]; exact h5 x,
          fun x => by rw [hdn]; exact h6 x⟩
  · intro k hk
    refine h2 k ?_
    intro j' hj' hkj'
    exact hk j' (List.mem_append.mpr (Or.inl hj')) hkj'
  · intro j' hj' hk
    rcases List.mem_append.mp hj' with hin | hone
    · exact h3 j' hin hk
    · have : j' = j := by simpa using hone
      subst this
      exact absurd hk hnk
  · intro j' hj' hk m hm hv
    rcases List.mem_append.mp hj' with hin | hone
    · exact h4 j' hin hk m hm hv
    · have : j' = j := by simpa using hone
      subst this
      exact absurd hv (hdel hk m hm)

/-- First-run step, `none` action: a pure no-op on the invariant. -/
theorem run1_step_none (cfg : Cfg) (st0 : St) (pre : List Job) (j : Job) (st : St)
    (hact : j.entry.action = Act.none)
    (hinv : Inv1 cfg st0 pre st) :
    Inv1 cfg st0 (pre ++ [j]) (execEntryRun cfg st j) := by
  have hext := Inv1_extend_inert cfg st0 pre j st (by simp [hact])
    (by simp [validDelName, hact]) (by intro hd; rw [hact] at hd; exact absurd hd (by simp)) hinv
  refine Inv1_congr cfg st0 (pre ++ [j]) st _ ?_ ?_ ?_ ?_ hext <;>
    simp [execEntryRun, hact]

/-- Dispatch equation: a keep entry runs `execKeep` on the warning-adjusted
state. -/
theorem execEntryRun_keep (cfg : Cfg) (st : St) (j : Job) (hact : j.entry.action = Act.keep) :
    ∃ w, execEntryRun cfg st j =
      execKeep cfg { st with warnings := w } j (st.store (j.rid, j.fieldKey)) :=
  ⟨_, by simp only [execEntryRun, hact]; rfl⟩

/-- Dispatch equation: a delete entry runs `execDelete` on the
warning-adjusted state. -/
theorem execEntryRun_delete (cfg : Cfg) (st : St) (j : Job) (hact : j.entry.action = Act.delete) :
    ∃ w, execEntryRun cfg st j =
      execDelete cfg { st with warnings := w } j (st.store (j.rid, j.fieldKey))
        (eHasOf (st.store (j.rid, j.fieldKey))) :=
  ⟨_, by simp only [execEntryRun, hact]; rfl⟩

/-- Keep branch equation, up-to-date case. -/
theorem execKeep_eq_fresh (cfg : Cfg) (st : St) (j : Job) (a : Attachment)
    (stored : Option StoredMap)
    (hatta : j.entry.attachment = some a)
    (hguard : jsName j.rid j.entry.value ∉ st.keepNames)
    (hfr : (st.fs (jsName j.rid j.entry.value)).isSome = true ∧
      imgIsUpToDate cfg.hashFn (st.fs (jsName j.rid j.entry.value)) stored
        (jsName j.rid j.entry.value) a.id = true) :
    execKeep cfg st j stored = { st with
      keepNames := st.keepNames ++ [jsName j.rid j.entry.value],
      upToDate := st.upToDate + 1,
      results := st.results ++ [(j.rid, j.fieldKey, Outcome.kept)] } := by
  simp only [execKeep, hatta]
  rw [if_neg hguard, if_pos hfr]

/-- Keep branch equation, download case. -/
theorem execKeep_eq_download (cfg : Cfg) (st : St) (j : Job) (a : Attachment)
    (stored : Option StoredMap) (c : Content)
    (hatta : j.entry.attachment = some a)
    (hguard : jsName j.rid j.entry.value ∉ st.keepNames)
    (hfr : ¬ ((st.fs (jsName j.rid j.entry.value)).isSome = true ∧
      imgIsUpToDate cfg.hashFn (st.fs (jsName j.rid j.entry.value)) stored
        (jsName j.rid j.entry.value) a.id = true))
    (hfetch : cfg.fetch a.download_url = some c) :
    execKeep cfg st j stored = { st with
      fs := fun n => if n = jsName j.rid j.entry.value then some c else st.fs n,
      store := fun k => if k = (j.rid, j.fieldKey) then some
        { imageName := some (jsName j.rid j.entry.value), originalName := j.entry.value,
          attachmentId := some a.id, saveTimestamp := some cfg.ts,
          imgInfo := some
            { assetUid := some cfg.assetUid, assetName := some cfg.assetName,
              recordId := some j.rid, name := some (jsName j.rid j.entry.value),
              size := some (c.length : Int),
              sizeMB := some (toString c.length ++ "MB"),
              type := jsOrStr (cfg.fetchType a.download_url) (some a.mimetype),
              dimensions := some ("width: " ++ toString (cfg.imgW c) ++ " pixels, height: "
                ++ toString (cfg.imgH c) ++ " pixels"),
              width := some (cfg.imgW c), height := some (cfg.imgH c),
              hash := some (cfg.hashFn c) },
          hash := Option.none }
        else st.store k,
      keepNames := st.keepNames ++ [jsName j.rid j.entry.value],
      downloads := st.downloads + 1,
      results := st.results ++ [(j.rid, j.fieldKey, Outcome.downloaded)] } := by
  simp only [execKeep, hatta]
  rw [if_neg hguard, if_neg hfr, hfetch]

/-- Delete branch equation, no-valid-record case. -/
theorem execDelete_eq_noinfo (cfg : Cfg) (st : St) (j : Job) (stored : Option StoredMap) :
    execDelete cfg st j stored false = { st with
      nones := st.nones + 1,
      results := st.results ++ [(j.rid, j.fieldKey, Outcome.noStateInfo)] } := by
  simp [execDelete]

/-- Delete branch equation, valid record but missing file. -/
theorem execDelete_eq_missing (cfg : Cfg) (st : St) (j : Job) (m : StoredMap)
    (hg1 : jsStr m.imageName ∉ st.keepNames)
    (hg2 : jsStr m.imageName ∉ st.deleteNames)
    (hfs : st.fs (jsStr m.imageName) = Option.none) :
    execDelete cfg st j (some m) true = { st with
      deleteNames := st.deleteNames ++ [jsStr m.imageName],
      nones := st.nones + 1,
      results := st.results ++ [(j.rid, j.fieldKey, Outcome.missingFile)] } := by
  simp only [execDelete, if_true]
  rw [if_neg hg1, if_neg hg2, hfs]

/-- Delete branch equation, existing file but the top-level hash member is
absent: the `isValidFileHash` argument check throws. -/
theorem execDelete_eq_hashthrow (cfg : Cfg) (st : St) (j : Job) (m : StoredMap) (c : Content)
    (hg1 : jsStr m.imageName ∉ st.keepNames)
    (hg2 : jsStr m.imageName ∉ st.deleteNames)
    (hfs : st.fs (jsStr m.imageName) = some c)
    (hh : m.hash = Option.none) :
    execDelete cfg st j (some m) true = { st with
      deleteNames := st.deleteNames ++ [jsStr m.imageName],
      errors := st.errors + 1,
      results := st.results ++ [(j.rid, j.fieldKey,
        Outcome.err "isValidFileHash operation failed: expected array in @arg")] } := by
  simp only [execDelete, if_true]
  rw [if_neg hg1, if_neg hg2, hfs, hh]
  rfl

/-- Delete branch equation, existing file with mismatching stored hash. -/
theorem execDelete_eq_mismatch (cfg : Cfg) (st : St) (j : Job) (m : StoredMap) (c : Content)
    (h : HashVal)
    (hg1 : jsStr m.imageName ∉ st.keepNames)
    (hg2 : jsStr m.imageName ∉ st.deleteNames)
    (hfs : st.fs (jsStr m.imageName) = some c)
    (hh : m.hash = some h)
    (hne : cfg.hashFn c ≠ h) :
    execDelete cfg st j (some m) true = { st with
      deleteNames := st.deleteNames ++ [jsStr m.imageName],
      errors := st.errors + 1,
      results := st.results ++ [(j.rid, j.fieldKey,
        Outcome.err ("trying to remove an image with a different hash than the image that was stored originally : "
          ++ jsStr m.imageName))] } := by
  simp only [execDelete, if_true]
  rw [if_neg hg1, if_neg hg2]
  simp [hfs, hh, hne, errResult]

/-- Delete branch equation, existing file with matching stored hash: the file
is removed (and quarantined when the destructive policy is off). -/
theorem execDelete_eq_remove (cfg : Cfg) (st : St) (j : Job) (m : StoredMap) (c : Content)
    (h : HashVal)
    (hg1 : jsStr m.imageName ∉ st.keepNames)
    (hg2 : jsStr m.imageName ∉ st.deleteNames)
    (hfs : st.fs (jsStr m.imageName) = some c)
    (hh : m.hash = some h)
    (heq : cfg.hashFn c = h) :
    execDelete cfg st j (some m) true =
      (if cfg.deleteImages then { st with
        fs := fun n => if n = jsStr m.imageName then Option.none else st.fs n,
        deleteNames := st.deleteNames ++ [jsStr m.imageName],
        deletes := st.deletes + 1,
        results := st.results ++ [(j.rid, j.fieldKey, Outcome.removedFile)] }
      else { st with
        fs := fun n => if n = jsStr m.imageName then Option.none else st.fs n,
        quarantine := st.quarantine ++ [(jsStr m.imageName, c)],
        deleteNames := st.deleteNames ++ [jsStr m.imageName],
        deletes := st.deletes + 1,
        results := st.results ++ [(j.rid, j.fieldKey, Outcome.movedFile)] }) := by
  simp only [execDelete, if_true]
  rw [if_neg hg1, if_neg hg2]
  simp only [hfs, hh]
  rw [if_neg (show ¬ (cfg.hashFn c ≠ h) from by simp [heq])]

/-- One first-run step on a keep job, under the run well-formedness
hypotheses: the invariant extends across it. -/
theorem run1_step_keep (cfg : Cfg) (st0 : St) (pre suf : List Job) (j : Job) (st : St)
    (hact : j.entry.action = Act.keep)
    (hkeys : ((pre ++ j :: suf).map (fun x => (x.rid, x.fieldKey))).Nodup)
    (hkt : (keepTargets (pre ++ j :: suf)).Nodup)
    (hdisj : ∀ n ∈ delNames st0.store (pre ++ j :: suf), n ∉ keepTargets (pre ++ j :: suf))
    (hv : ∃ v, j.entry.value = some v ∧ v ≠ "")
    (hwf : ∃ a, j.entry.attachment = some a ∧ a.mimetype ≠ "" ∧
      ∃ c, cfg.fetch a.download_url = some c)
    (hts : cfg.ts ≠ "") (huid : cfg.assetUid ≠ "") (hnm : cfg.assetName ≠ "")
    (hinv : Inv1 cfg st0 pre st) :
    Inv1 cfg st0 (pre ++ [j]) (execEntryRun cfg st j) := by
  obtain ⟨v, hvv, hvne⟩ := hv
  obtain ⟨a, hatta, hmime, c, hfetch⟩ := hwf
  obtain ⟨h1, h2, h3, h4, h5, h6⟩ := hinv
  obtain ⟨w, hrun⟩ := execEntryRun_keep cfg st j hact
  have hktdec : keepTargets (pre ++ j :: suf)
      = keepTargets pre ++ jsName j.rid j.entry.value :: keepTargets suf := by
    rw [keepTargets_append, keepTargets_cons_keep j suf hact]
  have hTsplit := nodup_middle_split (hktdec ▸ hkt)
  have hguard : jsName j.rid j.entry.value ∉ st.keepNames :=
    fun hmem => hTsplit.1 ((h5 _).mp hmem)
  have hktnew : keepTargets (pre ++ [j])
      = keepTargets pre ++ [jsName j.rid j.entry.value] := by
    rw [keepTargets_append, keepTargets_cons_keep j [] hact]
    simp [keepTargets]
  have hvd : validDelName st0.store j = Option.none := by simp [validDelName, hact]
  have hdnnew : delNames st0.store (pre ++ [j]) = delNames st0.store pre := by
    rw [delNames_append, delNames_cons, hvd]
    simp [delNames]
  have hkeysdec : ((pre ++ j :: suf).map (fun x => (x.rid, x.fieldKey)))
      = pre.map (fun x => (x.rid, x.fieldKey)) ++
        (j.rid, j.fieldKey) :: suf.map (fun x => (x.rid, x.fieldKey)) := by
    simp
  have hkeysplit := nodup_middle_split (hkeysdec ▸ hkeys)
  have hkeyne : ∀ j' ∈ pre, (j'.rid, j'.fieldKey) ≠ (j.rid, j.fieldKey) := by
    intro j' hj' he
    exact hkeysplit.1 (by rw [← he]; exact List.mem_map_of_mem _ hj')
  rw [hrun]
  by_cases hfr : ((st.fs (jsName j.rid j.entry.value)).isSome = true ∧
      imgIsUpToDate cfg.hashFn (st.fs (jsName j.rid j.entry.value))
        (st.store (j.rid, j.fieldKey)) (jsName j.rid j.entry.value) a.id = true)
  · -- up-to-date branch
    rw [execKeep_eq_fresh cfg { st with warnings := w } j a
      (st.store (j.rid, j.fieldKey)) hatta hguard hfr]
    refine ⟨?_, ?_, ?_, ?_, ?_, ?_⟩
    · intro n hn1 hn2
      rw [hktnew] at hn1
      rw [hdnnew] at hn2
      exact h1 n (fun hm => hn1 (List.mem_append.mpr (Or.inl hm))) hn2
    · intro k hk
      exact h2 k (fun j' hj' hk' => hk j' (List.mem_append.mpr (Or.inl hj')) hk')
    · intro j' hj' hact'
      rcases List.mem_append.mp hj' with hin | hin
      · exact h3 j' hin hact'
      · have hjj : j' = j := by simpa using hin
        subst j'
        intro a' ha'
        have haa : a' = a := by rw [hatta] at ha'; exact (Option.some.inj ha').symm
        subst a'
        obtain ⟨c0, hc0⟩ := Option.isSome_iff_exists.mp hfr.1
        have hupd := hfr.2
        cases hsm : st.store (j.rid, j.fieldKey) with
        | none => rw [hc0, hsm] at hupd; simp [imgIsUpToDate] at hupd
        | some m =>
          rw [hc0, hsm] at hupd
          rw [imgIsUpToDate_eq_true_iff] at hupd
          obtain ⟨hvalid, hname, hattid, ii, hii, hval, hvalh, hfc⟩ := hupd
          exact ⟨m, c0, rfl, hvalid, hname, hattid, hc0, ii, hii, by rw [hvalh, hfc]⟩
    · intro j' hj' hact' m hm hvalm
      rcases List.mem_append.mp hj' with hin | hin
      · exact h4 j' hin hact' m hm hvalm
      · have hjj : j' = j := by simpa using hin
        subst j'
        rw [hact] at hact'
        exact absurd hact' (by decide)
    · intro x
      rw [hktnew]
      simp [h5 x]
    · intro x
      rw [hdnnew]
      simp [h6 x]
  · -- download branch
    rw [execKeep_eq_download cfg { st with warnings := w } j a
      (st.store (j.rid, j.fieldKey)) c hatta hguard hfr hfetch]
    have hA : strExists (some (jsName j.rid j.entry.value)) = true := by
      simp [strExists, jsName_ne_empty]
    have hB : strExists j.entry.value = true := by rw [hvv]; simp [strExists, hvne]
    have hC : strExists (some cfg.ts) = true := by simp [strExists, hts]
    have hD : strExists (some cfg.assetUid) = true := by simp [strExists, huid]
    have hE : strExists (some cfg.assetName) = true := by simp [strExists, hnm]
    have hF : strExists (some (toString c.length ++ "MB")) = true := by
      simp [strExists, append_right_ne_empty (toString c.length) "MB" (by decide)]
    have hG : strExists (some ("width: " ++ toString (cfg.imgW c) ++ " pixels, height: "
        ++ toString (cfg.imgH c) ++ " pixels")) = true := by
      simp [strExists, append_right_ne_empty _ " pixels" (by decide)]
    have hH : strExists (jsOrStr (cfg.fetchType a.download_url) (some a.mimetype)) = true :=
      strExists_jsOrStr _ _ hmime
    refine ⟨?_, ?_, ?_, ?_, ?_, ?_⟩
    · intro n hn1 hn2
      rw [hktnew] at hn1
      rw [hdnnew] at hn2
      have hnT : n ≠ jsName j.rid j.entry.value := by
        intro he; exact hn1 (List.mem_append.mpr (Or.inr (by simp [he])))
      have hnpre : n ∉ keepTargets pre := fun hm => hn1 (List.mem_append.mpr (Or.inl hm))
      show (if n = jsName j.rid j.entry.value then some c else st.fs n) = st0.fs n
      rw [if_neg hnT]
      exact h1 n hnpre hn2
    · intro k hk
      have hkj : (j.rid, j.fieldKey) ≠ k := hk j (List.mem_append.mpr (Or.inr (by simp))) hact
      show (if k = (j.rid, j.fieldKey) then _ else st.store k) = st0.store k
      rw [if_neg (Ne.symm hkj)]
      exact h2 k (fun j' hj' ha' => hk j' (List.mem_append.mpr (Or.inl hj')) ha')
    · intro j' hj' hact'
      rcases List.mem_append.mp hj' with hin | hin
      · intro a' ha'
        obtain ⟨m, c', hm1, hm2, hm3, hm4, hm5, hm6⟩ := h3 j' hin hact' a' ha'
        refine ⟨m, c', ?_, hm2, hm3, hm4, ?_, hm6⟩
        · show (if (j'.rid, j'.fieldKey) = (j.rid, j.fieldKey) then _
            else st.store (j'.rid, j'.fieldKey)) = some m
          rw [if_neg (hkeyne j' hin)]
          exact hm1
        · have hT' : jsName j'.rid j'.entry.value ∈ keepTargets pre :=
            mem_keepTargets pre j' hin hact'
          have hne : jsName j'.rid j'.entry.value ≠ jsName j.rid j.entry.value := by
            intro he; exact hTsplit.1 (he ▸ hT')
          show (if jsName j'.rid j'.entry.value = jsName j.rid j.entry.value then some c
            else st.fs (jsName j'.rid j'.entry.value)) = some c'
          rw [if_neg hne]
          exact hm5
      · have hjj : j' = j := by simpa using hin
        subst j'
        intro a' ha'
        have haa : a' = a := by rw [hatta] at ha'; exact (Option.some.inj ha').symm
        subst a'
        refine ⟨⟨some (jsName j.rid j.entry.value), j.entry.value, some a.id, some cfg.ts,
          some ⟨some cfg.assetUid, some cfg.assetName, some j.rid,
            some (jsName j.rid j.entry.value), some (c.length : Int),
            some (toString c.length ++ "MB"),
            jsOrStr (cfg.fetchType a.download_url) (some a.mimetype),
            some ("width: " ++ toString (cfg.imgW c) ++ " pixels, height: "
              ++ toString (cfg.imgH c) ++ " pixels"),
            some (cfg.imgW c), some (cfg.imgH c), some (cfg.hashFn c)⟩,
          Option.none⟩, c, ?_, ?_, rfl, rfl, ?_, ⟨_, rfl, rfl⟩⟩
        · show (if (j.rid, j.fieldKey) = (j.rid, j.fieldKey) then _
            else st.store (j.rid, j.fieldKey)) = some _
          rw [if_pos rfl]
        · simp [isValidAttachmentMap, hA, hB, hC, hD, hE, hF, hG, hH]
        · show (if jsName j.rid j.entry.value = jsName j.rid j.entry.value then some c
            else st.fs (jsName j.rid j.entry.value)) = some c
          rw [if_pos rfl]
    · intro j' hj' hact' m hm hvalm
      rcases List.mem_append.mp hj' with hin | hin
      · obtain ⟨d1, d2⟩ := h4 j' hin hact' m hm hvalm
        have hvd' : validDelName st0.store j' = some (jsStr m.imageName) := by
          simp [validDelName, hact', hm, hvalm]
        have hmemd : jsStr m.imageName ∈ delNames st0.store (pre ++ j :: suf) :=
          mem_delNames _ _ j' (List.mem_append.mpr (Or.inl hin)) hvd'
        have hTmem : jsName j.rid j.entry.value ∈ keepTargets (pre ++ j :: suf) :=
          mem_keepTargets _ j (by simp) hact
        have hneT : jsStr m.imageName ≠ jsName j.rid j.entry.value := by
          intro he
          apply hdisj _ hmemd
          rw [he]
          exact hTmem
        refine ⟨?_, ?_⟩
        · intro hx
          show (if jsStr m.imageName = jsName j.rid j.entry.value then some c
            else st.fs (jsStr m.imageName)) = Option.none
          rw [if_neg hneT]
          exact d1 hx
        · intro c' hc'
          obtain ⟨e1, e2⟩ := d2 c' hc'
          refine ⟨fun hz => ?_, fun hz => ?_⟩
          · show (if jsStr m.imageName = jsName j.rid j.entry.value then some c
              else st.fs (jsStr m.imageName)) = Option.none
            rw [if_neg hneT]
            exact e1 hz
          · show (if jsStr m.imageName = jsName j.rid j.entry.value then some c
              else st.fs (jsStr m.imageName)) = some c'
            rw [if_neg hneT]
            exact e2 hz
      · have hjj : j' = j := by simpa using hin
        subst j'
        rw [hact] at hact'
        exact absurd hact' (by decide)
    · intro x
      rw [hktnew]
      simp [h5 x]
    · intro x
      rw [hdnnew]
      simp [h6 x]

/-- Master step lemma for a delete job with a valid initial record: the
invariant extends to any result state that touches only that record's file
name, resolves it deterministically against the initial state, leaves the
store untouched and appends the name to the delete-guard list. -/
theorem Inv1_delete_step (cfg : Cfg) (st0 : St) (pre : List Job) (j : Job) (st st' : St)
    (m : StoredMap)
    (hact : j.entry.action = Act.delete)
    (hsm0 : st0.store (j.rid, j.fieldKey) = some m)
    (hvalm : isValidAttachmentMap m = true)
    (hnkt : jsStr m.imageName ∉ keepTargets pre)
    (hndn : jsStr m.imageName ∉ delNames st0.store pre)
    (hfr : ∀ x, x ≠ jsStr m.imageName → st'.fs x = st.fs x)
    (hself1 : st0.fs (jsStr m.imageName) = Option.none →
      st'.fs (jsStr m.imageName) = Option.none)
    (hself2 : ∀ c, st0.fs (jsStr m.imageName) = some c →
      (m.hash = some (cfg.hashFn c) → st'.fs (jsStr m.imageName) = Option.none) ∧
      (m.hash ≠ some (cfg.hashFn c) → st'.fs (jsStr m.imageName) = some c))
    (hstore' : ∀ k, st'.store k = st.store k)
    (hkn' : ∀ x, x ∈ st'.keepNames ↔ x ∈ st.keepNames)
    (hdn' : ∀ x, x ∈ st'.deleteNames ↔ x ∈ st.deleteNames ∨ x = jsStr m.imageName)
    (hinv : Inv1 cfg st0 pre st) :
    Inv1 cfg st0 (pre ++ [j]) st' := by
  obtain ⟨h1, h2, h3, h4, h5, h6⟩ := hinv
  have hnk : ¬ j.entry.action = Act.keep := by simp [hact]
  have hvd : validDelName st0.store j = some (jsStr m.imageName) := by
    simp [validDelName, hact, hsm0, hvalm]
  have hktnew : keepTargets (pre ++ [j]) = keepTargets pre := by
    rw [keepTargets_append, keepTargets_cons_other j [] hnk]
    simp [keepTargets]
  have hdnnew : delNames st0.store (pre ++ [j])
      = delNames st0.store pre ++ [jsStr m.imageName] := by
    rw [delNames_append, delNames_cons, hvd]
    simp [delNames]
  refine ⟨?_, ?_, ?_, ?_, ?_, ?_⟩
  · intro x hx1 hx2
    rw [hktnew] at hx1
    rw [hdnnew] at hx2
    have hxne : x ≠ jsStr m.imageName :=
      fun he => hx2 (List.mem_append.mpr (Or.inr (by simp [he])))
    have hxd : x ∉ delNames st0.store pre :=
      fun hm' => hx2 (List.mem_append.mpr (Or.inl hm'))
    rw [hfr x hxne]
    exact h1 x hx1 hxd
  · intro k hk
    rw [hstore' k]
    exact h2 k (fun j' hj' ha' => hk j' (List.mem_append.mpr (Or.inl hj')) ha')
  · intro j' hj' hact'
    rcases List.mem_append.mp hj' with hin | hin
    · intro a' ha'
      obtain ⟨m', c', hm1, hm2, hm3, hm4, hm5, hm6⟩ := h3 j' hin hact' a' ha'
      have hT'ne : jsName j'.rid j'.entry.value ≠ jsStr m.imageName :=
        fun he => hnkt (he ▸ mem_keepTargets pre j' hin hact')
      exact ⟨m', c', by rw [hstore']; exact hm1, hm2, hm3, hm4,
        by rw [hfr _ hT'ne]; exact hm5, hm6⟩
    · have hjj : j' = j := by simpa using hin
      subst j'
      rw [hact] at hact'
      exact absurd hact' (by decide)
  · intro j' hj' hact' m' hm' hvalm'
    rcases List.mem_append.mp hj' with hin | hin
    · obtain ⟨d1, d2⟩ := h4 j' hin hact' m' hm' hvalm'
      have hvd' : validDelName st0.store j' = some (jsStr m'.imageName) := by
        simp [validDelName, hact', hm', hvalm']
      have hn'mem : jsStr m'.imageName ∈ delNames st0.store pre :=
        mem_delNames _ _ j' hin hvd'
      have hne : jsStr m'.imageName ≠ jsStr m.imageName := fun he => hndn (he ▸ hn'mem)
      refine ⟨fun hz => ?_, fun c' hc' => ?_⟩
      · rw [hfr _ hne]
        exact d1 hz
      · obtain ⟨e1, e2⟩ := d2 c' hc'
        exact ⟨fun hz => by rw [hfr _ hne]; exact e1 hz,
               fun hz => by rw [hfr _ hne]; exact e2 hz⟩
    · have hjj : j' = j := by simpa using hin
      subst j'
      rw [hsm0] at hm'
      have hmm : m' = m := (Option.some.inj hm').symm
      subst m'
      exact ⟨hself1, hself2⟩
  · intro x
    rw [hktnew, hkn' x]
    exact h5 x
  · intro x
    rw [hdnnew, hdn' x]
    simp [h6 x]

/-- One first-run step on a delete job, under the run well-formedness
hypotheses: the invariant extends across it. -/
theorem run1_step_delete (cfg : Cfg) (st0 : St) (pre suf : List Job) (j : Job) (st : St)
    (hact : j.entry.action = Act.delete)
    (hkeys : ((pre ++ j :: suf).map (fun x => (x.rid, x.fieldKey))).Nodup)
    (hdn : (delNames st0.store (pre ++ j :: suf)).Nodup)
    (hdisj : ∀ n ∈ delNames st0.store (pre ++ j :: suf), n ∉ keepTargets (pre ++ j :: suf))
    (hinv : Inv1 cfg st0 pre st) :
    Inv1 cfg st0 (pre ++ [j]) (execEntryRun cfg st j) := by
  have hnk : ¬ j.entry.action = Act.keep := by simp [hact]
  have hkeysdec : ((pre ++ j :: suf).map (fun x => (x.rid, x.fieldKey)))
      = pre.map (fun x => (x.rid, x.fieldKey)) ++
        (j.rid, j.fieldKey) :: suf.map (fun x => (x.rid, x.fieldKey)) := by
    simp
  have hkeysplit := nodup_middle_split (hkeysdec ▸ hkeys)
  have hkeyne : ∀ j' ∈ pre, (j'.rid, j'.fieldKey) ≠ (j.rid, j.fieldKey) := by
    intro j' hj' he
    exact hkeysplit.1 (by rw [← he]; exact List.mem_map_of_mem _ hj')
  have hstoreeq : st.store (j.rid, j.fieldKey) = st0.store (j.rid, j.fieldKey) :=
    hinv.2.1 _ (fun j' hj' _ => hkeyne j' hj')
  obtain ⟨w, hrun⟩ := execEntryRun_delete cfg st j hact
  rw [hrun, hstoreeq]
  cases hsm0 : st0.store (j.rid, j.fieldKey) with
  | none =>
    rw [show eHasOf (Option.none : Option StoredMap) = false from rfl,
      execDelete_eq_noinfo]
    have hvd : validDelName st0.store j = Option.none := by
      simp [validDelName, hact, hsm0]
    have hext := Inv1_extend_inert cfg st0 pre j st hnk hvd
      (fun _ m hm => by rw [hsm0] at hm; exact absurd hm (by simp)) hinv
    exact Inv1_congr cfg st0 (pre ++ [j]) st _ rfl rfl rfl rfl hext
  | some m =>
    by_cases hvalm : isValidAttachmentMap m = true
    · -- valid record: the delete proceeds
      obtain ⟨h1, h2, h3, h4, h5, h6⟩ := hinv
      have hvd : validDelName st0.store j = some (jsStr m.imageName) := by
        simp [validDelName, hact, hsm0, hvalm]
      have hdndec : delNames st0.store (pre ++ j :: suf)
          = delNames st0.store pre ++ jsStr m.imageName :: delNames st0.store suf := by
        rw [delNames_append, delNames_cons, hvd]
      have hnsplit := nodup_middle_split (hdndec ▸ hdn)
      have hmemd : jsStr m.imageName ∈ delNames st0.store (pre ++ j :: suf) := by
        rw [hdndec]
        exact List.mem_append.mpr (Or.inr (List.mem_cons_self _ _))
      have hnotk : jsStr m.imageName ∉ keepTargets (pre ++ j :: suf) := hdisj _ hmemd
      have hnotkpre : jsStr m.imageName ∉ keepTargets pre := by
        intro hm'
        apply hnotk
        rw [keepTargets_append]
        exact List.mem_append.mpr (Or.inl hm')
      have hg1 : jsStr m.imageName ∉ st.keepNames := fun hmem => hnotkpre ((h5 _).mp hmem)
      have hg2 : jsStr m.imageName ∉ st.deleteNames := fun hmem => hnsplit.1 ((h6 _).mp hmem)
      have hfseq : st.fs (jsStr m.imageName) = st0.fs (jsStr m.imageName) :=
        h1 _ hnotkpre hnsplit.1
      rw [show eHasOf (some m) = isValidAttachmentMap m from rfl, hvalm]
      cases hfs0 : st0.fs (jsStr m.imageName) with
      | none =>
        have hfsn : st.fs (jsStr m.imageName) = Option.none := by rw [hfseq, hfs0]
        rw [execDelete_eq_missing cfg { st with warnings := w } j m hg1 hg2 hfsn]
        refine Inv1_delete_step cfg st0 pre j st _ m hact hsm0 hvalm hnotkpre hnsplit.1
          (fun x _ => rfl) (fun _ => hfsn) ?_ (fun k => rfl) (fun x => Iff.rfl) ?_
          ⟨h1, h2, h3, h4, h5, h6⟩
        · intro c' hc'
          rw [hfs0] at hc'
          exact Option.noConfusion hc'
        · intro x
          show x ∈ st.deleteNames ++ [jsStr m.imageName] ↔ _
          simp
      | some c0 =>
        have hfsc : st.fs (jsStr m.imageName) = some c0 := by rw [hfseq, hfs0]
        have hvac1 : st0.fs (jsStr m.imageName) = Option.none → False := by
          intro hz; rw [hfs0] at hz; exact Option.noConfusion hz
        cases hh : m.hash with
        | none =>
          rw [execDelete_eq_hashthrow cfg { st with warnings := w } j m c0 hg1 hg2 hfsc hh]
          refine Inv1_delete_step cfg st0 pre j st _ m hact hsm0 hvalm hnotkpre hnsplit.1
            (fun x _ => rfl) (fun hz => absurd hz (fun hz => hvac1 hz)) ?_
            (fun k => rfl) (fun x => Iff.rfl) ?_ ⟨h1, h2, h3, h4, h5, h6⟩
          · intro c' hc'
            rw [hfs0] at hc'
            have hcc : c0 = c' := Option.some.inj hc'
            subst c'
            refine ⟨fun hz => ?_, fun _ => hfsc⟩
            · rw [hh] at hz
              exact Option.noConfusion hz
          · intro x
            show x ∈ st.deleteNames ++ [jsStr m.imageName] ↔ _
            simp
        | some hsv =>
          by_cases hmatch : cfg.hashFn c0 = hsv
          · rw [execDelete_eq_remove cfg { st with warnings := w } j m c0 hsv
              hg1 hg2 hfsc hh hmatch]
            by_cases hdi : cfg.deleteImages = true
            · rw [if_pos hdi]
              refine Inv1_delete_step cfg st0 pre j st _ m hact hsm0 hvalm hnotkpre hnsplit.1
                ?_ (fun hz => absurd hz (fun hz => hvac1 hz)) ?_
                (fun k => rfl) (fun x => Iff.rfl) ?_ ⟨h1, h2, h3, h4, h5, h6⟩
              · intro x hx
                show (if x = jsStr m.imageName then Option.none else st.fs x) = st.fs x
                rw [if_neg hx]
              · intro c' hc'
                rw [hfs0] at hc'
                have hcc : c0 = c' := Option.some.inj hc'
                subst c'
                refine ⟨fun _ => ?_, fun hne => absurd (by rw [hh, hmatch]) hne⟩
                show (if jsStr m.imageName = jsStr m.imageName then Option.none
                  else st.fs (jsStr m.imageName)) = Option.none
                rw [if_pos rfl]
              · intro x
                show x ∈ st.deleteNames ++ [jsStr m.imageName] ↔ _
                simp
            · rw [if_neg hdi]
              refine Inv1_delete_step cfg st0 pre j st _ m hact hsm0 hvalm hnotkpre hnsplit.1
                ?_ (fun hz => absurd hz (fun hz => hvac1 hz)) ?_
                (fun k => rfl) (fun x => Iff.rfl) ?_ ⟨h1, h2, h3, h4, h5, h6⟩
              · intro x hx
                show (if x = jsStr m.imageName then Option.none else st.fs x) = st.fs x
                rw [if_neg hx]
              · intro c' hc'
                rw [hfs0] at hc'
                have hcc : c0 = c' := Option.some.inj hc'
                subst c'
                refine ⟨fun _ => ?_, fun hne => absurd (by rw [hh, hmatch]) hne⟩
                show (if jsStr m.imageName = jsStr m.imageName then Option.none
                  else st.fs (jsStr m.imageName)) = Option.none
                rw [if_pos rfl]
              · intro x
                show x ∈ st.deleteNames ++ [jsStr m.imageName] ↔ _
                simp
          · rw [execDelete_eq_mismatch cfg { st with warnings := w } j m c0 hsv
              hg1 hg2 hfsc hh hmatch]
            refine Inv1_delete_step cfg st0 pre j st _ m hact hsm0 hvalm hnotkpre hnsplit.1
              (fun x _ => rfl) (fun hz => absurd hz (fun hz => hvac1 hz)) ?_
              (fun k => rfl) (fun x => Iff.rfl) ?_ ⟨h1, h2, h3, h4, h5, h6⟩
            · intro c' hc'
              rw [hfs0] at hc'
              have hcc : c0 = c' := Option.some.inj hc'
              subst c'
              refine ⟨fun hz => ?_, fun _ => hfsc⟩
              · rw [hh] at hz
                have : hsv = cfg.hashFn c0 := Option.some.inj hz
                exact absurd this.symm hmatch
            · intro x
              show x ∈ st.deleteNames ++ [jsStr m.imageName] ↔ _
              simp
    · -- present-but-invalid record: warning, then the delete no-ops
      have hf : isValidAttachmentMap m = false := Bool.eq_false_iff.mpr hvalm
      rw [show eHasOf (some m) = isValidAttachmentMap m from rfl, hf,
        execDelete_eq_noinfo]
      have hvd : validDelName st0.store j = Option.none := by
        simp [validDelName, hact, hsm0, hvalm]
      have hext := Inv1_extend_inert cfg st0 pre j st hnk hvd
        (fun _ m' hm' => by
          rw [hsm0] at hm'
          exact (Option.some.inj hm') ▸ hvalm) hinv
      exact Inv1_congr cfg st0 (pre ++ [j]) st _ rfl rfl rfl rfl hext

/-- First-run loop: from the invariant on a processed prefix, the remaining
jobs run to completion and establish the invariant on the whole list. -/
theorem run1_go (cfg : Cfg) (st0 : St) (jobs : List Job)
    (hkeys : (jobs.map (fun x => (x.rid, x.fieldKey))).Nodup)
    (hkt : (keepTargets jobs).Nodup)
    (hdn : (delNames st0.store jobs).Nodup)
    (hurl : ∀ j ∈ jobs, ∀ a, j.entry.attachment = some a → a.download_url ≠ "")
    (hkeep : ∀ j ∈ jobs, j.entry.action = Act.keep →
      (∃ v, j.entry.value = some v ∧ v ≠ "") ∧
      (∃ a, j.entry.attachment = some a ∧ a.mimetype ≠ "" ∧
        ∃ c, cfg.fetch a.download_url = some c))
    (hdisj : ∀ n ∈ delNames st0.store jobs, n ∉ keepTargets jobs)
    (hts : cfg.ts ≠ "") (huid : cfg.assetUid ≠ "") (hnm : cfg.assetName ≠ "") :
    ∀ rest pre st, jobs = pre ++ rest → Inv1 cfg st0 pre st →
      ∃ st1, execJobs cfg st rest = .ok st1 ∧ Inv1 cfg st0 jobs st1 := by
  intro rest
  induction rest with
  | nil =>
    intro pre st hsplit hinv
    refine ⟨st, rfl, ?_⟩
    rw [hsplit, List.append_nil]
    exact hinv
  | cons j rest' ih =>
    intro pre st hsplit hinv
    have hj : j ∈ jobs := by
      rw [hsplit]
      exact List.mem_append.mpr (Or.inr (List.mem_cons_self _ _))
    have hstep : execEntry cfg st j = .ok (execEntryRun cfg st j) :=
      execEntry_ok cfg st j (hurl j hj)
    have hinv' : Inv1 cfg st0 (pre ++ [j]) (execEntryRun cfg st j) := by
      cases hact : j.entry.action with
      | keep =>
        obtain ⟨hv, hwf⟩ := hkeep j hj hact
        exact run1_step_keep cfg st0 pre rest' j st hact (hsplit ▸ hkeys) (hsplit ▸ hkt)
          (hsplit ▸ hdisj) hv hwf hts huid hnm hinv
      | delete =>
        exact run1_step_delete cfg st0 pre rest' j st hact (hsplit ▸ hkeys)
          (hsplit ▸ hdn) (hsplit ▸ hdisj) hinv
      | none =>
        exact run1_step_none cfg st0 pre j st hact hinv
    have hsplit' : jobs = (pre ++ [j]) ++ rest' := by rw [hsplit]; simp
    obtain ⟨st1, hrun, hinvf⟩ := ih (pre ++ [j]) (execEntryRun cfg st j) hsplit' hinv'
    exact ⟨st1, by simp only [execJobs, hstep]; exact hrun, hinvf⟩

/-- The first run under the idempotence hypotheses: it completes and leaves
the state described by `Inv1` over the whole job list. -/
theorem run1_total (cfg : Cfg) (st0 : St) (jobs : List Job) (h : C7Hyps cfg st0 jobs) :
    ∃ st1, execJobs cfg st0 jobs = .ok st1 ∧ Inv1 cfg st0 jobs st1 := by
  obtain ⟨hkeys, hkt, hdn, hurl, hkeep, hdisj, hts, huid, hnm, hkn0, hdn0⟩ := h
  have hinv0 : Inv1 cfg st0 [] st0 := by
    refine ⟨fun n _ _ => rfl, fun k _ => rfl, ?_, ?_, ?_, ?_⟩
    · intro j hj
      exact absurd hj (List.not_mem_nil j)
    · intro j hj
      exact absurd hj (List.not_mem_nil j)
    · intro x
      rw [hkn0]
      simp [keepTargets]
    · intro x
      rw [hdn0]
      simp [delNames]
  exact run1_go cfg st0 jobs hkeys hkt hdn hurl hkeep hdisj hts huid hnm jobs [] st0
    rfl hinv0

/-- Dispatch equation: a none entry only bumps the no-op counter and logs. -/
theorem execEntryRun_none_eq (cfg : Cfg) (st : St) (j : Job)
    (hact : j.entry.action = Act.none) :
    ∃ w, execEntryRun cfg st j = { st with
      warnings := w,
      nones := st.nones + 1,
      results := st.results ++ [(j.rid, j.fieldKey, Outcome.noneOp)] } :=
  ⟨_, by simp only [execEntryRun, hact]; rfl⟩

/-- Second-run no-op step. -/
theorem run2_step_none (cfg : Cfg) (st0 st1 : St) (pre : List Job) (j : Job) (st : St)
    (hact : j.entry.action = Act.none)
    (hinv : Inv2 st0.store st1 pre st) :
    Inv2 st0.store st1 (pre ++ [j]) (execEntryRun cfg st j) := by
  obtain ⟨i1, i2, i3, i4, i5, i6, i7⟩ := hinv
  obtain ⟨w, hrun⟩ := execEntryRun_none_eq cfg st j hact
  have hnk : ¬ j.entry.action = Act.keep := by simp [hact]
  have hktnew : keepTargets (pre ++ [j]) = keepTargets pre := by
    rw [keepTargets_append, keepTargets_cons_other j [] hnk]
    simp [keepTargets]
  have hvd : validDelName st0.store j = Option.none := by simp [validDelName, hact]
  have hdnnew : delNames st0.store (pre ++ [j]) = delNames st0.store pre := by
    rw [delNames_append, delNames_cons, hvd]
    simp [delNames]
  rw [hrun]
  refine ⟨fun n => i1 n, fun k => i2 k, ?_, ?_, i5, i6, ?_⟩
  · intro x
    rw [hktnew]
    exact i3 x
  · intro x
    rw [hdnnew]
    exact i4 x
  · intro j' hj' hk'
    rcases List.mem_append.mp hj' with hin | hin
    · exact List.mem_append.mpr (Or.inl (i7 j' hin hk'))
    · have hjj : j' = j := by simpa using hin
      subst j'
      rw [hact] at hk'
      exact absurd hk' (by decide)

/-- Second-run keep step: a fresh keep entry re-resolves to up to date. -/
theorem run2_step_keep (cfg : Cfg) (st0 st1 : St) (pre suf : List Job) (j : Job) (st : St)
    (hact : j.entry.action = Act.keep)
    (hkt : (keepTargets (pre ++ j :: suf)).Nodup)
    (hatt : ∃ a, j.entry.attachment = some a)
    (hfresh : Fresh cfg st1 j)
    (hinv : Inv2 st0.store st1 pre st) :
    Inv2 st0.store st1 (pre ++ [j]) (execEntryRun cfg st j) := by
  obtain ⟨a, hatta⟩ := hatt
  obtain ⟨i1, i2, i3, i4, i5, i6, i7⟩ := hinv
  obtain ⟨m, c, hm1, hm2, hm3, hm4, hm5, hm6⟩ := hfresh a hatta
  obtain ⟨w, hrun⟩ := execEntryRun_keep cfg st j hact
  have hktdec : keepTargets (pre ++ j :: suf)
      = keepTargets pre ++ jsName j.rid j.entry.value :: keepTargets suf := by
    rw [keepTargets_append, keepTargets_cons_keep j suf hact]
  have hTsplit := nodup_middle_split (hktdec ▸ hkt)
  have hguard : jsName j.rid j.entry.value ∉ st.keepNames :=
    fun hmem => hTsplit.1 ((i3 _).mp hmem)
  have hcontent : st.fs (jsName j.rid j.entry.value) = some c := by
    rw [i1]
    exact hm5
  have hstored : st.store (j.rid, j.fieldKey) = some m := by
    rw [i2]
    exact hm1
  obtain ⟨ii, hii, hiih⟩ := hm6
  have hfr : (st.fs (jsName j.rid j.entry.value)).isSome = true ∧
      imgIsUpToDate cfg.hashFn (st.fs (jsName j.rid j.entry.value))
        (st.store (j.rid, j.fieldKey)) (jsName j.rid j.entry.value) a.id = true := by
    constructor
    · rw [hcontent]
      rfl
    · rw [hcontent, hstored, imgIsUpToDate_eq_true_iff]
      exact ⟨hm2, hm3, hm4, ii, hii, cfg.hashFn c, hiih, rfl⟩
  rw [hrun, execKeep_eq_fresh cfg { st with warnings := w } j a
    (st.store (j.rid, j.fieldKey)) hatta hguard hfr]
  have hktnew : keepTargets (pre ++ [j])
      = keepTargets pre ++ [jsName j.rid j.entry.value] := by
    rw [keepTargets_append, keepTargets_cons_keep j [] hact]
    simp [keepTargets]
  have hvd : validDelName st0.store j = Option.none := by simp [validDelName, hact]
  have hdnnew : delNames st0.store (pre ++ [j]) = delNames st0.store pre := by
    rw [delNames_append, delNames_cons, hvd]
    simp [delNames]
  refine ⟨fun n => i1 n, fun k => i2 k, ?_, ?_, i5, i6, ?_⟩
  · intro x
    rw [hktnew]
    simp [i3 x]
  · intro x
    rw [hdnnew]
    exact i4 x
  · intro j' hj' hk'
    rcases List.mem_append.mp hj' with hin | hin
    · exact List.mem_append.mpr (Or.inl (i7 j' hin hk'))
    · have hjj : j' = j := by simpa using hin
      subst j'
      exact List.mem_append.mpr (Or.inr (by simp))

/-- Transfer lemma for a second-run delete entry with a valid record: the
state only gains the stored name on the delete-guard list plus diagnostics. -/
theorem Inv2_delete_done (st0 st1 : St) (pre : List Job) (j : Job) (st st' : St)
    (m : StoredMap)
    (hact : j.entry.action = Act.delete)
    (hvd : validDelName st0.store j = some (jsStr m.imageName))
    (hfs' : ∀ n, st'.fs n = st.fs n)
    (hstore' : ∀ k, st'.store k = st.store k)
    (hkn' : ∀ x, x ∈ st'.keepNames ↔ x ∈ st.keepNames)
    (hdn' : ∀ x, x ∈ st'.deleteNames ↔ x ∈ st.deleteNames ∨ x = jsStr m.imageName)
    (hdl' : st'.downloads = st.downloads)
    (hde' : st'.deletes = st.deletes)
    (hres' : ∀ r, r ∈ st.results → r ∈ st'.results)
    (hinv : Inv2 st0.store st1 pre st) :
    Inv2 st0.store st1 (pre ++ [j]) st' := by
  obtain ⟨i1, i2, i3, i4, i5, i6, i7⟩ := hinv
  have hnk : ¬ j.entry.action = Act.keep := by simp [hact]
  have hktnew : keepTargets (pre ++ [j]) = keepTargets pre := by
    rw [keepTargets_append, keepTargets_cons_other j [] hnk]
    simp [keepTargets]
  have hdnnew : delNames st0.store (pre ++ [j])
      = delNames st0.store pre ++ [jsStr m.imageName] := by
    rw [delNames_append, delNames_cons, hvd]
    simp [delNames]
  refine ⟨fun n => by rw [hfs' n]; exact i1 n,
          fun k => by rw [hstore' k]; exact i2 k, ?_, ?_,
          by rw [hdl']; exact i5, by rw [hde']; exact i6, ?_⟩
  · intro x
    rw [hktnew, hkn' x]
    exact i3 x
  · intro x
    rw [hdnnew, hdn' x]
    simp [i4 x]
  · intro j' hj' hk'
    rcases List.mem_append.mp hj' with hin | hin
    · exact hres' _ (i7 j' hin hk')
    · have hjj : j' = j := by simpa using hin
      subst j'
      rw [hact] at hk'
      exact absurd hk' (by decide)

/-- Second-run delete step: the file system already reflects the first run's
resolution, so the entry re-resolves without deleting anything. -/
theorem run2_step_delete (cfg : Cfg) (st0 st1 : St) (pre suf : List Job) (j : Job) (st : St)
    (hact : j.entry.action = Act.delete)
    (hdn : (delNames st0.store (pre ++ j :: suf)).Nodup)
    (hdisj : ∀ n ∈ delNames st0.store (pre ++ j :: suf), n ∉ keepTargets (pre ++ j :: suf))
    (hsm_eq : st1.store (j.rid, j.fieldKey) = st0.store (j.rid, j.fieldKey))
    (hres : ∀ m, st0.store (j.rid, j.fieldKey) = some m → isValidAttachmentMap m = true →
      (st0.fs (jsStr m.imageName) = Option.none →
        st1.fs (jsStr m.imageName) = Option.none) ∧
      (∀ c, st0.fs (jsStr m.imageName) = some c →
        (m.hash = some (cfg.hashFn c) → st1.fs (jsStr m.imageName) = Option.none) ∧
        (m.hash ≠ some (cfg.hashFn c) → st1.fs (jsStr m.imageName) = some c)))
    (hinv : Inv2 st0.store st1 pre st) :
    Inv2 st0.store st1 (pre ++ [j]) (execEntryRun cfg st j) := by
  obtain ⟨i1, i2, i3, i4, i5, i6, i7⟩ := hinv
  obtain ⟨w, hrun⟩ := execEntryRun_delete cfg st j hact
  have hnk : ¬ j.entry.action = Act.keep := by simp [hact]
  have hktnew : keepTargets (pre ++ [j]) = keepTargets pre := by
    rw [keepTargets_append, keepTargets_cons_other j [] hnk]
    simp [keepTargets]
  have hstoreeq : st.store (j.rid, j.fieldKey) = st0.store (j.rid, j.fieldKey) := by
    rw [i2]
    exact hsm_eq
  rw [hrun, hstoreeq]
  cases hsm0 : st0.store (j.rid, j.fieldKey) with
  | none =>
    rw [show eHasOf (Option.none : Option StoredMap) = false from rfl,
      execDelete_eq_noinfo]
    have hvd : validDelName st0.store j = Option.none := by
      simp [validDelName, hact, hsm0]
    have hdnnew : delNames st0.store (pre ++ [j]) = delNames st0.store pre := by
      rw [delNames_append, delNames_cons, hvd]
      simp [delNames]
    refine ⟨fun n => i1 n, fun k => i2 k, ?_, ?_, i5, i6, ?_⟩
    · intro x
      rw [hktnew]
      exact i3 x
    · intro x
      rw [hdnnew]
      exact i4 x
    · intro j' hj' hk'
      rcases List.mem_append.mp hj' with hin | hin
      · exact List.mem_append.mpr (Or.inl (i7 j' hin hk'))
      · have hjj : j' = j := by simpa using hin
        subst j'
        rw [hact] at hk'
        exact absurd hk' (by decide)
  | some m =>
    by_cases hvalm : isValidAttachmentMap m = true
    · have hvd : validDelName st0.store j = some (jsStr m.imageName) := by
        simp [validDelName, hact, hsm0, hvalm]
      have hdndec : delNames st0.store (pre ++ j :: suf)
          = delNames st0.store pre ++ jsStr m.imageName :: delNames st0.store suf := by
        rw [delNames_append, delNames_cons, hvd]
      have hnsplit := nodup_middle_split (hdndec ▸ hdn)
      have hmemd : jsStr m.imageName ∈ delNames st0.store (pre ++ j :: suf) := by
        rw [hdndec]
        exact List.mem_append.mpr (Or.inr (List.mem_cons_self _ _))
      have hnotk : jsStr m.imageName ∉ keepTargets (pre ++ j :: suf) := hdisj _ hmemd
      have hnotkpre : jsStr m.imageName ∉ keepTargets pre := by
        intro hm'
        apply hnotk
        rw [keepTargets_append]
        exact List.mem_append.mpr (Or.inl hm')
      have hg1 : jsStr m.imageName ∉ st.keepNames :=
        fun hmem => hnotkpre ((i3 _).mp hmem)
      have hg2 : jsStr m.imageName ∉ st.deleteNames :=
        fun hmem => hnsplit.1 ((i4 _).mp hmem)
      obtain ⟨r1, r2⟩ := hres m hsm0 hvalm
      rw [show eHasOf (some m) = isValidAttachmentMap m from rfl, hvalm]
      cases hfs0 : st0.fs (jsStr m.imageName) with
      | none =>
        have hfsn : st.fs (jsStr m.imageName) = Option.none := by
          rw [i1]
          exact r1 hfs0
        rw [execDelete_eq_missing cfg { st with warnings := w } j m hg1 hg2 hfsn]
        refine Inv2_delete_done st0 st1 pre j st _ m hact hvd (fun n => rfl) (fun k => rfl)
          (fun x => Iff.rfl) ?_ rfl rfl
          (fun r hr => List.mem_append.mpr (Or.inl hr)) ⟨i1, i2, i3, i4, i5, i6, i7⟩
        intro x
        show x ∈ st.deleteNames ++ [jsStr m.imageName] ↔ _
        simp
      | some c0 =>
        obtain ⟨s1, s2⟩ := r2 c0 hfs0
        cases hh : m.hash with
        | none =>
          have hfsc : st.fs (jsStr m.imageName) = some c0 := by
            rw [i1]
            exact s2 (by rw [hh]; intro hz; exact Option.noConfusion hz)
          rw [execDelete_eq_hashthrow cfg { st with warnings := w } j m c0 hg1 hg2 hfsc hh]
          refine Inv2_delete_done st0 st1 pre j st _ m hact hvd (fun n => rfl) (fun k => rfl)
            (fun x => Iff.rfl) ?_ rfl rfl
            (fun r hr => List.mem_append.mpr (Or.inl hr)) ⟨i1, i2, i3, i4, i5, i6, i7⟩
          intro x
          show x ∈ st.deleteNames ++ [jsStr m.imageName] ↔ _
          simp
        | some hsv =>
          by_cases hmatch : cfg.hashFn c0 = hsv
          · have hfsn : st.fs (jsStr m.imageName) = Option.none := by
              rw [i1]
              exact s1 (by rw [hh, hmatch])
            rw [execDelete_eq_missing cfg { st with warnings := w } j m hg1 hg2 hfsn]
            refine Inv2_delete_done st0 st1 pre j st _ m hact hvd (fun n => rfl)
              (fun k => rfl) (fun x => Iff.rfl) ?_ rfl rfl
              (fun r hr => List.mem_append.mpr (Or.inl hr)) ⟨i1, i2, i3, i4, i5, i6, i7⟩
            intro x
            show x ∈ st.deleteNames ++ [jsStr m.imageName] ↔ _
            simp
          · have hfsc : st.fs (jsStr m.imageName) = some c0 := by
              rw [i1]
              refine s2 ?_
              rw [hh]
              intro hz
              exact hmatch (Option.some.inj hz).symm
            rw [execDelete_eq_mismatch cfg { st with warnings := w } j m c0 hsv
              hg1 hg2 hfsc hh hmatch]
            refine Inv2_delete_done st0 st1 pre j st _ m hact hvd (fun n => rfl)
              (fun k => rfl) (fun x => Iff.rfl) ?_ rfl rfl
              (fun r hr => List.mem_append.mpr (Or.inl hr)) ⟨i1, i2, i3, i4, i5, i6, i7⟩
            intro x
            show x ∈ st.deleteNames ++ [jsStr m.imageName] ↔ _
            simp
    · have hf : isValidAttachmentMap m = false := Bool.eq_false_iff.mpr hvalm
      rw [show eHasOf (some m) = isValidAttachmentMap m from rfl, hf,
        execDelete_eq_noinfo]
      have hvd : validDelName st0.store j = Option.none := by
        simp [validDelName, hact, hsm0, hvalm]
      have hdnnew : delNames st0.store (pre ++ [j]) = delNames st0.store pre := by
        rw [delNames_append, delNames_cons, hvd]
        simp [delNames]
      refine ⟨fun n => i1 n, fun k => i2 k, ?_, ?_, i5, i6, ?_⟩
      · intro x
        rw [hktnew]
        exact i3 x
      · intro x
        rw [hdnnew]
        exact i4 x
      · intro j' hj' hk'
        rcases List.mem_append.mp hj' with hin | hin
        · exact List.mem_append.mpr (Or.inl (i7 j' hin hk'))
        · have hjj : j' = j := by simpa using hin
          subst j'
          rw [hact] at hk'
          exact absurd hk' (by decide)

/-- Second-run loop: from the invariant on a processed prefix, the remaining
jobs run to completion and establish the invariant on the whole list. -/
theorem run2_go (cfg : Cfg) (st0 st1 : St) (jobs : List Job)
    (hkeys : (jobs.map (fun x => (x.rid, x.fieldKey))).Nodup)
    (hkt : (keepTargets jobs).Nodup)
    (hdn : (delNames st0.store jobs).Nodup)
    (hurl : ∀ j ∈ jobs, ∀ a, j.entry.attachment = some a → a.download_url ≠ "")
    (hkeep : ∀ j ∈ jobs, j.entry.action = Act.keep →
      (∃ v, j.entry.value = some v ∧ v ≠ "") ∧
      (∃ a, j.entry.attachment = some a ∧ a.mimetype ≠ "" ∧
        ∃ c, cfg.fetch a.download_url = some c))
    (hdisj : ∀ n ∈ delNames st0.store jobs, n ∉ keepTargets jobs)
    (hfresh_all : ∀ j ∈ jobs, j.entry.action = Act.keep → Fresh cfg st1 j)
    (hdel_all : ∀ j ∈ jobs, j.entry.action = Act.delete →
      ∀ m, st0.store (j.rid, j.fieldKey) = some m → isValidAttachmentMap m = true →
        (st0.fs (jsStr m.imageName) = Option.none →
          st1.fs (jsStr m.imageName) = Option.none) ∧
        (∀ c, st0.fs (jsStr m.imageName) = some c →
          (m.hash = some (cfg.hashFn c) → st1.fs (jsStr m.imageName) = Option.none) ∧
          (m.hash ≠ some (cfg.hashFn c) → st1.fs (jsStr m.imageName) = some c)))
    (hstore_all : ∀ k, (∀ j ∈ jobs, j.entry.action = Act.keep → (j.rid, j.fieldKey) ≠ k) →
      st1.store k = st0.store k) :
    ∀ rest pre st, jobs = pre ++ rest → Inv2 st0.store st1 pre st →
      ∃ st2, execJobs cfg st rest = .ok st2 ∧ Inv2 st0.store st1 jobs st2 := by
  intro rest
  induction rest with
  | nil =>
    intro pre st hsplit hinv
    refine ⟨st, rfl, ?_⟩
    rw [hsplit, List.append_nil]
    exact hinv
  | cons j rest' ih =>
    intro pre st hsplit hinv
    have hj : j ∈ jobs := by
      rw [hsplit]
      exact List.mem_append.mpr (Or.inr (List.mem_cons_self _ _))
    have hstep : execEntry cfg st j = .ok (execEntryRun cfg st j) :=
      execEntry_ok cfg st j (hurl j hj)
    have hinv' : Inv2 st0.store st1 (pre ++ [j]) (execEntryRun cfg st j) := by
      cases hact : j.entry.action with
      | keep =>
        obtain ⟨_, a, hatta, _, _⟩ := hkeep j hj hact
        exact run2_step_keep cfg st0 st1 pre rest' j st hact (hsplit ▸ hkt)
          ⟨a, hatta⟩ (hfresh_all j hj hact) hinv
      | delete =>
        have hkeysdec : (jobs.map (fun x => (x.rid, x.fieldKey)))
            = pre.map (fun x => (x.rid, x.fieldKey)) ++
              (j.rid, j.fieldKey) :: rest'.map (fun x => (x.rid, x.fieldKey)) := by
          rw [hsplit]
          simp
        have hksplit := nodup_middle_split (hkeysdec ▸ hkeys)
        have hsm_eq : st1.store (j.rid, j.fieldKey) = st0.store (j.rid, j.fieldKey) := by
          apply hstore_all
          intro j' hj' hk' he
          rw [hsplit] at hj'
          rcases List.mem_append.mp hj' with hin | hin
          · exact hksplit.1 (by rw [← he]; exact List.mem_map_of_mem _ hin)
          · rcases List.mem_cons.mp hin with hjj | hin'
            · subst j'
              rw [hact] at hk'
              exact absurd hk' (by decide)
            · exact hksplit.2 (by rw [← he]; exact List.mem_map_of_mem _ hin')
        exact run2_step_delete cfg st0 st1 pre rest' j st hact (hsplit ▸ hdn)
          (hsplit ▸ hdisj) hsm_eq (hdel_all j hj hact) hinv
      | none =>
        exact run2_step_none cfg st0 st1 pre j st hact hinv
    have hsplit' : jobs = (pre ++ [j]) ++ rest' := by rw [hsplit]; simp
    obtain ⟨st2, hrun, hinvf⟩ := ih (pre ++ [j]) (execEntryRun cfg st j) hsplit' hinv'
    exact ⟨st2, by simp only [execJobs, hstep]; exact hrun, hinvf⟩

/-- C7: idempotent convergence of `updateImages`.  Under the run
well-formedness hypotheses (unique keys and target names, non-empty download
URLs, every keep entry carrying a truthy value and a complete attachment
whose download succeeds, valid stored delete names unique and disjoint from
keep targets, truthy clock and asset identity, empty initial guard lists),
if the first run completes with state `st1`, then a second run over the same
jobs from the surviving persistent state completes with zero downloads and
zero deletions, and every keep entry resolves to kept/up-to-date. -/
theorem c7_idempotent (cfg : Cfg) (st0 : St) (jobs : List Job) (st1 : St)
    (hhyps : C7Hyps cfg st0 jobs)
    (hrun1 : execJobs cfg st0 jobs = Except.ok st1) :
    ∃ st2, execJobs cfg (initRun st1) jobs = Except.ok st2 ∧
      st2.downloads = 0 ∧ st2.deletes = 0 ∧
      ∀ j ∈ jobs, j.entry.action = Act.keep →
        (j.rid, j.fieldKey, Outcome.kept) ∈ st2.results := by
  obtain ⟨st1', hr1, hinv1⟩ := run1_total cfg st0 jobs hhyps
  rw [hr1] at hrun1
  have hst : st1' = st1 := Except.ok.inj hrun1
  subst st1'
  obtain ⟨hkeys, hkt, hdn, hurl, hkeep, hdisj, hts, huid, hnm, hkn0, hdn0⟩ := hhyps
  obtain ⟨g1, g2, g3, g4, g5, g6⟩ := hinv1
  have hinv20 : Inv2 st0.store st1 [] (initRun st1) := by
    refine ⟨fun n => rfl, fun k => rfl, ?_, ?_, rfl, rfl, ?_⟩
    · intro x
      show x ∈ ([] : List String) ↔ _
      simp [keepTargets]
    · intro x
      show x ∈ ([] : List String) ↔ _
      simp [delNames]
    · intro j hj
      exact absurd hj (List.not_mem_nil j)
  obtain ⟨st2, hr2, hfin⟩ := run2_go cfg st0 st1 jobs hkeys hkt hdn hurl hkeep hdisj
    g3 g4 g2 jobs [] (initRun st1) rfl hinv20
  exact ⟨st2, hr2, hfin.2.2.2.2.1, hfin.2.2.2.2.2.1, hfin.2.2.2.2.2.2⟩

/-- Witness: C7 at a concrete run with one keep job, discharging every
hypothesis at `cfgFix`, `stFix`, `[jobKeepFix]`. -/
theorem c7_witness :
    (C7Hyps cfgFix stFix [jobKeepFix] ∧
      execJobs cfgFix stFix [jobKeepFix]
        = Except.ok (execEntryRun cfgFix stFix jobKeepFix)) ∧
    ∃ st2, execJobs cfgFix (initRun (execEntryRun cfgFix stFix jobKeepFix)) [jobKeepFix]
        = Except.ok st2 ∧
      st2.downloads = 0 ∧ st2.deletes = 0 ∧
      ∀ j ∈ [jobKeepFix], j.entry.action = Act.keep →
        (j.rid, j.fieldKey, Outcome.kept) ∈ st2.results := by
  have hhyps : C7Hyps cfgFix stFix [jobKeepFix] := by
    refine ⟨by decide, by decide, ?_, ?_, ?_, ?_, by decide, by decide, by decide, rfl, rfl⟩
    · rw [show delNames stFix.store [jobKeepFix] = [] from by decide]
      exact List.nodup_nil
    · intro j hj a ha
      have hjj : j = jobKeepFix := by simpa using hj
      subst j
      have h2 : some attFix = some a := ha
      have haa : a = attFix := (Option.some.inj h2).symm
      subst a
      decide
    · intro j hj hk
      have hjj : j = jobKeepFix := by simpa using hj
      subst j
      exact ⟨⟨"b.jpg", rfl, by decide⟩, ⟨attFix, rfl, by decide, ⟨[7], rfl⟩⟩⟩
    · intro n hn
      rw [show delNames stFix.store [jobKeepFix] = [] from by decide] at hn
      exact absurd hn (List.not_mem_nil n)
  exact ⟨⟨hhyps, rfl⟩,
    c7_idempotent cfgFix stFix [jobKeepFix] (execEntryRun cfgFix stFix jobKeepFix) hhyps rfl⟩

end KoboImgFs
